import Mathlib

/-!
A verification development for the B-Minor lexer (`src/compiler.c`).

The scanner of `compiler.c` is embedded as pure Lean functions.

* The input stream (`FILE *src`) is the list of bytes still to be read; a byte
  is a natural number below 256.  `fgetc` is a pattern match on that list (the
  empty list is `EOF`), and `ungetc` of the byte just read gives the list back.
* The mutable program state (the locals `line` and `col` of `scan`, the
  globals `symbol_table` and `next_code`, and what was written so far to the
  standard output and to the diagnostic stream) is the record `Lexer`.
* A `char` array handed to `emit_token` is a C string: it ends at its first
  NUL byte (`cstr`).
* `int` counters (`line`, `col`, `next_code`) are natural numbers: the model
  counts without a bound.  The source only increments them, resets them to 1 or
  subtracts 1 after an increment, and never compares them, so the value the `int`
  holds and `%d` prints is `as_int` of the model's counter (32-bit wrap-around);
  the two agree as long as the counter is below `2^31`, which for `line` and
  `col` means an input shorter than `2^31 - 1` bytes.
-/

set_option maxRecDepth 100000

namespace BMinorLexer

/-! ## Constants and data -/

def MAX_IDENT_LEN : Nat := 256
def MAX_STR_LEN : Nat := 1024

/-- The ASCII bytes of a string literal (used for readable inputs; ASCII only). -/
def bytes (s : String) : List Nat := s.toList.map Char.toNat

/-- Token types: the constants `TOKEN_ID` ... `TOKEN_DELIMITER` of the source. -/
inductive TokenType where
  | TOKEN_ID
  | TOKEN_KEYWORD
  | TOKEN_INTEGER
  | TOKEN_STRING
  | TOKEN_OPERATOR
  | TOKEN_DELIMITER
deriving DecidableEq, Repr

open TokenType

/-- The label printed for a token type (the string each constant points to). -/
def TokenType.label : TokenType → String
  | TOKEN_ID => "ID"
  | TOKEN_KEYWORD => "keywords"
  | TOKEN_INTEGER => "INTEGER"
  | TOKEN_STRING => "STRING"
  | TOKEN_OPERATOR => "operators"
  | TOKEN_DELIMITER => "delimiters"

/-- One call of `emit_token(type, value, lexeme)`: one line of the token table. -/
structure Token where
  type : TokenType
  value : List Nat
  lexeme : List Nat
deriving DecidableEq, Repr

/-- One line written to the diagnostic stream by one of the four `fprintf(stderr, ...)`. -/
inductive Diagnostic where
  | StringTooLong (line col : Nat)
  | UnterminatedString (line col : Nat)
  | UnterminatedBlockComment (line col : Nat)
  | InvalidCharacter (c line col : Nat)
deriving DecidableEq, Repr

/-- A node of the linked list `symbol_table`. -/
structure Symbol where
  name : List Nat
  code : Nat
deriving DecidableEq, Repr

/-- The program state: the locals `line`, `col` of `scan`, the globals
`symbol_table` (head first) and `next_code`, and the two output streams. -/
structure Lexer where
  line : Nat
  col : Nat
  symbol_table : List Symbol
  next_code : Nat
  tokens : List Token
  errors : List Diagnostic
deriving DecidableEq, Repr

/-- The state at the start of `scan`: `line = 1, col = 1`, `symbol_table = NULL`,
`next_code = 100`, nothing written yet. -/
def Lexer.init : Lexer :=
  { line := 1, col := 1, symbol_table := [], next_code := 100, tokens := [], errors := [] }

/-- The keyword table `keywords[]` (15 entries), as bytes:
array, boolean, char, else, false, for, function, if, integer, print, return,
string, true, void, while. -/
def keywords : List (List Nat) :=
  [ [97, 114, 114, 97, 121], [98, 111, 111, 108, 101, 97, 110], [99, 104, 97, 114],
    [101, 108, 115, 101], [102, 97, 108, 115, 101], [102, 111, 114],
    [102, 117, 110, 99, 116, 105, 111, 110], [105, 102],
    [105, 110, 116, 101, 103, 101, 114], [112, 114, 105, 110, 116],
    [114, 101, 116, 117, 114, 110], [115, 116, 114, 105, 110, 103],
    [116, 114, 117, 101], [118, 111, 105, 100], [119, 104, 105, 108, 101] ]

def num_keywords : Nat := 15

/-! ## `<ctype.h>` and `<string.h>` in the "C" locale -/

def isspace (c : Nat) : Bool := c == 32 || (9 ≤ c && c ≤ 13)
def isdigit (c : Nat) : Bool := 48 ≤ c && c ≤ 57
def isalpha (c : Nat) : Bool := (65 ≤ c && c ≤ 90) || (97 ≤ c && c ≤ 122)
def isalnum (c : Nat) : Bool := isalpha c || isdigit c

/-- The C string held by a `char` array: the bytes before the first NUL. -/
def cstr (buffer : List Nat) : List Nat := buffer.takeWhile (fun b => b != 0)

/-- The test `strchr(s, c) != NULL`: the terminating NUL of `s` counts as part of
the string, so the byte 0 is always found. -/
def strchr (s : List Nat) (c : Nat) : Bool := c == 0 || s.contains c

/-- The decimal digits of `n` (as ASCII bytes) put in front of `acc`, most
significant digit first; `fuel` bounds the number of digits. -/
def decimal_digits : Nat → Nat → List Nat → List Nat
  | 0, _, acc => acc
  | fuel + 1, n, acc =>
    if n / 10 = 0 then (48 + n % 10) :: acc
    else decimal_digits fuel (n / 10) ((48 + n % 10) :: acc)

/-- The text written by `sprintf(code, "%d", n)` for a non-negative `n`. -/
def sprintf_d (n : Nat) : List Nat := decimal_digits (n + 1) n []

/-! ## Supporting functions -/

/-- `strchr("()[]{},;:\"'", c) != NULL`. -/
def is_delimiter (c : Nat) : Bool :=
  strchr [40, 41, 91, 93, 123, 125, 44, 59, 58, 34, 39] c

/-- `strchr("+-!*/%^<>=|&", c) != NULL`. -/
def is_operator_start (c : Nat) : Bool :=
  strchr [43, 45, 33, 42, 47, 37, 94, 60, 62, 61, 124, 38] c

/-- The second argument is the lookahead `next`, `none` at end of input
(`EOF` converted to `char` equals neither `=` nor `+`). -/
def is_multi_char_operator (c1 : Nat) (c2 : Option Nat) : Bool :=
  (c1 == 58 && c2 == some 61) || (c1 == 61 && c2 == some 61) || (c1 == 43 && c2 == some 43)

/-- The `while (current)` loop of `get_id_code`: the code of the first node
whose name compares equal. -/
def lookup : List Symbol → List Nat → Option Nat
  | [], _ => none
  | current :: next, name =>
    if current.name = name then some current.code else lookup next name

/-- `get_id_code(name)`: the returned code and the state afterwards. -/
def get_id_code (name : List Nat) (s : Lexer) : Nat × Lexer :=
  match lookup s.symbol_table name with
  | some code => (code, s)
  | none =>
    (s.next_code,
      { s with symbol_table := { name := name, code := s.next_code } :: s.symbol_table,
               next_code := s.next_code + 1 })

/-- `emit_token(type, value, lexeme)`: both arguments are printed with `%s`. -/
def emit_token (type : TokenType) (value lexeme : List Nat) (s : Lexer) : Lexer :=
  { s with tokens := s.tokens ++ [{ type := type, value := cstr value, lexeme := cstr lexeme }] }

/-- One `fprintf(stderr, "Error: ...")`. -/
def report (d : Diagnostic) (s : Lexer) : Lexer :=
  { s with errors := s.errors ++ [d] }

/-! ## String literals -/

/-- The `while` loop of `process_string` together with the code after it.
`buffer` holds the `len` bytes written so far. -/
def process_string_loop (start_line start_col : Nat) :
    List Nat → List Nat → Lexer → List Nat × Lexer
  | [], buffer, s =>
    ([], emit_token TOKEN_STRING buffer buffer (report (.UnterminatedString start_line start_col) s))
  | c :: rest, buffer, s =>
    if c = 34 then
      let s1 := emit_token TOKEN_STRING (buffer ++ [34]) (buffer ++ [34]) s
      (rest, { s1 with col := s1.col + 1 })
    else if c = 92 then
      match rest with
      | [] =>
        -- `esc == EOF`: the default case stores the backslash and `(char)EOF`
        let buffer1 := buffer ++ [92, 255]
        let s1 := { s with col := s.col + 1 }
        if buffer1.length ≥ MAX_STR_LEN - 2 then
          ([], emit_token TOKEN_STRING buffer1 buffer1 (report (.StringTooLong start_line start_col) s1))
        else
          -- the next `fgetc` returns `EOF` again: the loop ends
          ([], emit_token TOKEN_STRING buffer1 buffer1 (report (.UnterminatedString start_line start_col) s1))
      | esc :: rest1 =>
        let buffer1 :=
          if esc = 110 then buffer ++ [10]
          else if esc = 116 then buffer ++ [9]
          else if esc = 34 then buffer ++ [34]
          else if esc = 92 then buffer ++ [92]
          else buffer ++ [92, esc]
        let s1 := { s with col := s.col + 1 }
        if buffer1.length ≥ MAX_STR_LEN - 2 then
          (rest1, emit_token TOKEN_STRING buffer1 buffer1 (report (.StringTooLong start_line start_col) s1))
        else process_string_loop start_line start_col rest1 buffer1 s1
    else
      let buffer1 := buffer ++ [c]
      let s1 := if c = 10 then { s with line := s.line + 1, col := 1 } else { s with col := s.col + 1 }
      if buffer1.length ≥ MAX_STR_LEN - 2 then
        (rest, emit_token TOKEN_STRING buffer1 buffer1 (report (.StringTooLong start_line start_col) s1))
      else process_string_loop start_line start_col rest buffer1 s1

/-- `process_string(src, &line, &col)`, called after the opening quote was read. -/
def process_string (src : List Nat) (s : Lexer) : List Nat × Lexer :=
  process_string_loop s.line s.col src [34] { s with col := s.col + 1 }

/-! ## Comments -/

/-- `skip_block_comment(src, &line, &col, start_line, start_col)`. -/
def skip_block_comment (start_line start_col : Nat) : List Nat → Lexer → List Nat × Lexer
  | [], s => ([], report (.UnterminatedBlockComment start_line start_col) s)
  | c :: rest, s =>
    let s1 := { s with col := s.col + 1 }
    if c = 10 then skip_block_comment start_line start_col rest { s1 with line := s1.line + 1, col := 1 }
    else if c = 42 then
      match rest with
      | 47 :: rest1 => (rest1, s1)
      | _ => skip_block_comment start_line start_col rest s1
    else skip_block_comment start_line start_col rest s1

/-- `skip_line_comment(src, &line, &col)`. -/
def skip_line_comment : List Nat → Lexer → List Nat × Lexer
  | [], s => ([], s)
  | c :: rest, s =>
    if c = 10 then (rest, { s with line := s.line + 1, col := 1 })
    else skip_line_comment rest { s with col := s.col + 1 }

/-! ## The scanner -/

/-- The two inner loops of `scan`,
`while ((c = fgetc(src)) != EOF && p(c)) { if (len < MAX_IDENT_LEN - 1) buf[len++] = c; col++; }`
followed by `ungetc(c, src)`; `p` is `isalnum(c) || c == '_'` for identifiers and
`isdigit(c)` for numbers.  Returns the stream, the buffer and the column. -/
def scan_run (p : Nat → Bool) : List Nat → List Nat → Nat → List Nat × List Nat × Nat
  | [], buf, col => ([], buf, col)
  | c :: rest, buf, col =>
    if p c then
      scan_run p rest (if buf.length < MAX_IDENT_LEN - 1 then buf ++ [c] else buf) (col + 1)
    else (c :: rest, buf, col)

/-- The condition `isalnum(c) || c == '_'` of the identifier loop. -/
def ident_char (c : Nat) : Bool := isalnum c || c == 95

/-- The body of the main loop of `scan` for the byte `c` just read, `rest` being
the stream after it. -/
def scan_step (c : Nat) (rest : List Nat) (s : Lexer) : List Nat × Lexer :=
  if isspace c then
    if c = 10 then (rest, { s with line := s.line + 1, col := 1 })
    else (rest, { s with col := s.col + 1 })
  else if c = 34 then process_string rest s
  else if c = 47 then
    let s1 := { s with col := s.col + 1 }
    match rest with
    | 47 :: rest1 => skip_line_comment rest1 s1
    | 42 :: rest1 => skip_block_comment s1.line (s1.col - 1) rest1 s1
    | _ => (rest, emit_token TOKEN_OPERATOR [c] [c] s1)
  else if is_operator_start c then
    match rest with
    | next :: rest1 =>
      if is_multi_char_operator c (some next) then
        let s1 := emit_token TOKEN_OPERATOR [c, next] [c, next] { s with col := s.col + 1 }
        (rest1, { s1 with col := s1.col + 1 })
      else
        let s1 := emit_token TOKEN_OPERATOR [c] [c] s
        (rest, { s1 with col := s1.col + 1 })
    | [] =>
      if is_multi_char_operator c none then
        let s1 := emit_token TOKEN_OPERATOR [c, 255] [c, 255] { s with col := s.col + 1 }
        ([], { s1 with col := s1.col + 1 })
      else
        let s1 := emit_token TOKEN_OPERATOR [c] [c] s
        ([], { s1 with col := s1.col + 1 })
  else if is_delimiter c then
    let s1 := emit_token TOKEN_DELIMITER [c] [c] s
    (rest, { s1 with col := s1.col + 1 })
  else if isalpha c || c = 95 then
    let (src1, ident, col1) := scan_run ident_char rest [c] s.col
    let s1 := { s with col := col1 }
    if keywords.contains ident then (src1, emit_token TOKEN_KEYWORD ident ident s1)
    else
      let (code, s2) := get_id_code ident s1
      (src1, emit_token TOKEN_ID (sprintf_d code) ident s2)
  else if isdigit c then
    let (src1, num, col1) := scan_run isdigit rest [c] s.col
    (src1, emit_token TOKEN_INTEGER num num { s with col := col1 })
  else
    let s1 := report (.InvalidCharacter c s.line s.col) s
    (rest, { s1 with col := s1.col + 1 })

/-- The main loop of `scan`: `while ((c = fgetc(src)) != EOF) { ... }`.  Each
iteration costs one unit of `fuel`; `none` means the fuel ran out before the end
of the input was reached. -/
def scan_loop : Nat → List Nat → Lexer → Option Lexer
  | _, [], s => some s
  | 0, _ :: _, _ => none
  | fuel + 1, c :: rest, s => scan_loop fuel (scan_step c rest s).1 (scan_step c rest s).2

/-- `scan(src)` from the initial state.  Every iteration reads at least one byte,
so the length of the input is enough fuel (`scan_loop_isSome`). -/
def scan (src : List Nat) : Option Lexer := scan_loop src.length src Lexer.init

/-! ## Specification-side vocabulary -/

/-- The state after the calls `get_id_code(names[0])`, `get_id_code(names[1])`, ...
made in this order from the state `s`. -/
def calls (names : List (List Nat)) (s : Lexer) : Lexer :=
  names.foldl (fun s name => (get_id_code name s).2) s

/-- The closing sequence `*/` does not occur in `t`. -/
def no_close (t : List Nat) : Prop := ¬ [42, 47] <:+: t

instance (t : List Nat) : Decidable (no_close t) := inferInstanceAs (Decidable (¬ _))

/-- Inputs made only of whitespace and comments: a whitespace byte, a line
comment `//` that runs to a newline or to the end of the input, a block comment
`/*` ... `*/` closed by the first `*/` after its opening, or a block comment left
open at the end of the input. -/
inductive blank : List Nat → Prop
  | nil : blank []
  | space (c : Nat) (rest : List Nat) : isspace c = true → blank rest → blank (c :: rest)
  | line_comment (body rest : List Nat) :
      10 ∉ body → blank rest → blank (47 :: 47 :: (body ++ 10 :: rest))
  | line_comment_eof (body : List Nat) : 10 ∉ body → blank (47 :: 47 :: body)
  | block_comment (body rest : List Nat) :
      no_close body → blank rest → blank (47 :: 42 :: (body ++ 42 :: 47 :: rest))
  | block_comment_eof (body : List Nat) : no_close body → blank (47 :: 42 :: body)

/-- One element of the body of a string literal: a plain byte, or a backslash
followed by the byte `x`. -/
inductive StrItem where
  | plain (c : Nat)
  | escape (x : Nat)
deriving DecidableEq, Repr

/-- The source text of one element. -/
def StrItem.raw : StrItem → List Nat
  | .plain c => [c]
  | .escape x => [92, x]

/-- What one element stands for: `\n` is a newline byte, `\t` a tab byte, `\"` a
quote, `\\` one backslash, any other `\X` stays the two bytes backslash and `X`,
and a plain byte is itself. -/
def StrItem.decode : StrItem → List Nat
  | .plain c => [c]
  | .escape x =>
    if x = 110 then [10]
    else if x = 116 then [9]
    else if x = 34 then [34]
    else if x = 92 then [92]
    else [92, x]

/-- A plain byte is neither the quote nor the backslash. -/
def StrItem.valid : StrItem → Prop
  | .plain c => c ≠ 34 ∧ c ≠ 92
  | .escape _ => True

instance (i : StrItem) : Decidable i.valid := by
  cases i <;> unfold StrItem.valid <;> infer_instance

/-- The source text of a string body. -/
def raw_body : List StrItem → List Nat
  | [] => []
  | i :: items => i.raw ++ raw_body items

/-- The decoded text of a string body. -/
def decode : List StrItem → List Nat
  | [] => []
  | i :: items => i.decode ++ decode items

/-- The link between the symbol table and the tokens written so far: every code
in the table is below `next_code`, no code belongs to two names, every
Identifier token carries the decimal text of the code the table gives for its
lexeme, and every other token has its value equal to its lexeme. -/
def consistent (s : Lexer) : Prop :=
  (∀ n c, lookup s.symbol_table n = some c → c < s.next_code) ∧
  (∀ n₁ n₂ c, lookup s.symbol_table n₁ = some c → lookup s.symbol_table n₂ = some c → n₁ = n₂) ∧
  (∀ t ∈ s.tokens, t.type = TOKEN_ID →
    ∃ c, lookup s.symbol_table t.lexeme = some c ∧ t.value = sprintf_d c) ∧
  (∀ t ∈ s.tokens, t.type ≠ TOKEN_ID → t.value = t.lexeme)

/-- The tokens of a finished scan (`[]` when the scan did not finish). -/
def tokens_of (r : Option Lexer) : List Token :=
  match r with
  | some s => s.tokens
  | none => []

/-- The 1-based line of the byte that comes right after the text `pre`: 1 plus
the number of newline bytes in `pre`. -/
def line_of (pre : List Nat) : Nat := 1 + pre.count 10

/-- The 1-based column of the byte that comes right after the text `pre`: 1 plus
the number of bytes between it and the preceding newline (or the start of the
text). -/
def column_of (pre : List Nat) : Nat := 1 + (pre.reverse.takeWhile (fun b => b != 10)).length

/-- A diagnostic without its position. -/
def Diagnostic.unplaced : Diagnostic → Diagnostic
  | .StringTooLong _ _ => .StringTooLong 0 0
  | .UnterminatedString _ _ => .UnterminatedString 0 0
  | .UnterminatedBlockComment _ _ => .UnterminatedBlockComment 0 0
  | .InvalidCharacter c _ _ => .InvalidCharacter c 0 0

/-- The diagnostics of a finished scan (`[]` when the scan did not finish). -/
def errors_of (r : Option Lexer) : List Diagnostic :=
  match r with
  | some s => s.errors
  | none => []

/-- Two states that differ only by their position and by what was written before:
they have the same symbol table and `next_code`, the tokens of `s` are `preT`
followed by the tokens of `s'`, and the diagnostics of `s`, positions aside, are
`preE` followed by those of `s'`. -/
def similar (preT : List Token) (preE : List Diagnostic) (s s' : Lexer) : Prop :=
  s.symbol_table = s'.symbol_table ∧ s.next_code = s'.next_code ∧
  s.tokens = preT ++ s'.tokens ∧
  s.errors.map Diagnostic.unplaced = preE ++ s'.errors.map Diagnostic.unplaced

/-- The indices of `buffer` that the loop of `process_string` and the code after
it write, in order, when `buffer` holds the `len` bytes written so far: every
`buffer[len++] = ...` writes at the current length, and so does the final
`buffer[len] = '\0'`.  The recursion is that of `process_string_loop`. -/
def process_string_writes : List Nat → List Nat → List Nat
  | [], buffer => [buffer.length]
  | c :: rest, buffer =>
    if c = 34 then [buffer.length, (buffer ++ [34]).length]
    else if c = 92 then
      match rest with
      | [] =>
        -- backslash, `(char)EOF`, then the terminating NUL of either exit
        [buffer.length, buffer.length + 1, (buffer ++ [92, 255]).length]
      | esc :: rest1 =>
        let buffer1 :=
          if esc = 110 then buffer ++ [10]
          else if esc = 116 then buffer ++ [9]
          else if esc = 34 then buffer ++ [34]
          else if esc = 92 then buffer ++ [92]
          else buffer ++ [92, esc]
        let written :=
          if esc = 110 ∨ esc = 116 ∨ esc = 34 ∨ esc = 92 then [buffer.length]
          else [buffer.length, buffer.length + 1]
        if buffer1.length ≥ MAX_STR_LEN - 2 then written ++ [buffer1.length]
        else written ++ process_string_writes rest1 buffer1
    else
      let buffer1 := buffer ++ [c]
      if buffer1.length ≥ MAX_STR_LEN - 2 then [buffer.length, buffer1.length]
      else buffer.length :: process_string_writes rest buffer1

/-- The indices written by the inner loops of `scan` into `ident` or `num`, and
by the `buf[len] = '\0'` after the loop, when `buf` holds the `len` bytes written
so far.  The recursion is that of `scan_run`. -/
def scan_run_writes (p : Nat → Bool) : List Nat → List Nat → List Nat
  | [], buf => [buf.length]
  | c :: rest, buf =>
    if p c then
      if buf.length < MAX_IDENT_LEN - 1 then buf.length :: scan_run_writes p rest (buf ++ [c])
      else scan_run_writes p rest buf
    else [buf.length]

theorem keywords_eq :
    keywords =
      ["array", "boolean", "char", "else", "false", "for", "function", "if", "integer", "print",
        "return", "string", "true", "void", "while"].map bytes := by
  decide

theorem keywords_length_eq : keywords.length = num_keywords := by decide

theorem is_delimiter_eq (c : Nat) : is_delimiter c = strchr (bytes "()[]\x7b\x7d,;:\"\x27") c := by
  have h : bytes "()[]\x7b\x7d,;:\"\x27" = [40, 41, 91, 93, 123, 125, 44, 59, 58, 34, 39] := by decide
  rw [h]
  rfl

theorem is_operator_start_eq (c : Nat) : is_operator_start c = strchr (bytes "+-!*/%^<>=|&") c := by
  have h : bytes "+-!*/%^<>=|&" = [43, 45, 33, 42, 47, 37, 94, 60, 62, 61, 124, 38] := by decide
  rw [h]
  rfl

/-! ## The symbol table -/

theorem lookup_cons (sym : Symbol) (tbl : List Symbol) (name : List Nat) :
    lookup (sym :: tbl) name = if sym.name = name then some sym.code else lookup tbl name := rfl

theorem get_id_code_of_lookup {name : List Nat} {s : Lexer} {code : Nat}
    (h : lookup s.symbol_table name = some code) : get_id_code name s = (code, s) := by
  simp [get_id_code, h]

/-- After `get_id_code(name)` the table maps `name` to the returned code. -/
theorem lookup_after_get_id_code (name : List Nat) (s : Lexer) :
    lookup (get_id_code name s).2.symbol_table name = some (get_id_code name s).1 := by
  unfold get_id_code
  cases h : lookup s.symbol_table name with
  | some code => simpa using h
  | none => simp [lookup_cons]

/-- A call never changes what the table says about a name it already holds. -/
theorem lookup_preserved {m : List Nat} {s : Lexer} {code : Nat} (n : List Nat)
    (h : lookup s.symbol_table m = some code) :
    lookup (get_id_code n s).2.symbol_table m = some code := by
  unfold get_id_code
  cases hn : lookup s.symbol_table n with
  | some c => simpa using h
  | none =>
    have hne : n ≠ m := by
      intro e
      rw [e, h] at hn
      exact Option.noConfusion hn
    simp [lookup_cons, hne, h]

/-- A call of `get_id_code` touches only `symbol_table` and `next_code`. -/
theorem get_id_code_frame (name : List Nat) (s : Lexer) :
    (get_id_code name s).2.tokens = s.tokens ∧ (get_id_code name s).2.errors = s.errors ∧
    (get_id_code name s).2.line = s.line ∧ (get_id_code name s).2.col = s.col := by
  unfold get_id_code
  cases lookup s.symbol_table name <;> exact ⟨rfl, rfl, rfl, rfl⟩

theorem get_id_code_tokens (name : List Nat) (s : Lexer) :
    (get_id_code name s).2.tokens = s.tokens := (get_id_code_frame name s).1

theorem calls_nil (s : Lexer) : calls [] s = s := rfl

theorem calls_cons (n : List Nat) (names : List (List Nat)) (s : Lexer) :
    calls (n :: names) s = calls names (get_id_code n s).2 := rfl

theorem calls_append (l₁ l₂ : List (List Nat)) (s : Lexer) :
    calls (l₁ ++ l₂) s = calls l₂ (calls l₁ s) := by
  simp [calls, List.foldl_append]

theorem lookup_preserved_calls {m : List Nat} {code : Nat} (names : List (List Nat)) :
    ∀ s : Lexer, lookup s.symbol_table m = some code →
      lookup (calls names s).symbol_table m = some code := by
  induction names with
  | nil => intro s h; exact h
  | cons n names ih =>
    intro s h
    rw [calls_cons]
    exact ih _ (lookup_preserved n h)

theorem dedup_length_snoc_of_mem {n : List Nat} {l : List (List Nat)} (h : n ∈ l) :
    (l ++ [n]).dedup.length = l.dedup.length := by
  rw [← List.card_toFinset, ← List.card_toFinset, List.toFinset_append]
  congr 1
  simpa using h

theorem dedup_length_snoc_of_not_mem {n : List Nat} {l : List (List Nat)} (h : n ∉ l) :
    (l ++ [n]).dedup.length = l.dedup.length + 1 := by
  rw [← List.card_toFinset, ← List.card_toFinset, List.toFinset_append]
  have hd : Disjoint l.toFinset [n].toFinset := by simpa using h
  rw [Finset.card_union_of_disjoint hd]
  simp

/-- What is known of the table after any sequence of calls from the initial
state: the names it holds are the names asked for, and `next_code` counts them. -/
theorem calls_init_spec (names : List (List Nat)) :
    (∀ n, lookup (calls names Lexer.init).symbol_table n = none ↔ n ∉ names) ∧
    (calls names Lexer.init).next_code = 100 + names.dedup.length := by
  induction names using List.reverseRecOn with
  | nil => exact ⟨fun n => by simp [calls_nil, Lexer.init, lookup], rfl⟩
  | append_singleton names m ih =>
    obtain ⟨ih₁, ih₂⟩ := ih
    rw [calls_append, calls_cons, calls_nil]
    by_cases hm : m ∈ names
    · have hs : ∃ c, lookup (calls names Lexer.init).symbol_table m = some c := by
        cases h : lookup (calls names Lexer.init).symbol_table m with
        | none => exact absurd hm ((ih₁ m).1 h)
        | some c => exact ⟨c, rfl⟩
      obtain ⟨c, hc⟩ := hs
      rw [get_id_code_of_lookup hc, dedup_length_snoc_of_mem hm]
      refine ⟨fun n => ?_, ih₂⟩
      rw [ih₁ n]
      constructor
      · intro h1 h2
        rcases List.mem_append.1 h2 with h3 | h3
        · exact h1 h3
        · exact h1 (by simpa using (List.mem_singleton.1 h3) ▸ hm)
      · intro h1 h2
        exact h1 (List.mem_append_left _ h2)
    · have hnone := (ih₁ m).2 hm
      rw [dedup_length_snoc_of_not_mem hm]
      simp only [get_id_code, hnone]
      refine ⟨fun n => ?_, by rw [ih₂]; omega⟩
      rw [lookup_cons]
      by_cases hmn : m = n
      · subst hmn
        simp
      · simp only [hmn, if_false]
        rw [ih₁ n]
        simp [List.mem_append, Ne.symm hmn]

/-! ## Claims -/

/-- C1 (evaluation of the code): on the input `:=` the scanner emits two tokens,
the Delimiter `:` and then the Operator `=`, because `:` is not in the set tested
by `is_operator_start` and so never reaches `is_multi_char_operator`. -/
theorem scan_colon_equals :
    scan (bytes ":=") =
      some { Lexer.init with
        col := 3
        tokens := [ { type := TOKEN_DELIMITER, value := bytes ":", lexeme := bytes ":" },
                    { type := TOKEN_OPERATOR, value := bytes "=", lexeme := bytes "=" } ] } := by
  decide

/-- C2 (evaluation of the code): on the input `integer x := 5;` the scanner emits
six tokens and no diagnostic: Keyword `integer`, Identifier `x` with value `100`,
Delimiter `:`, Operator `=`, Integer `5`, Delimiter `;`. -/
theorem scan_integer_declaration :
    scan (bytes "integer x := 5;") =
      some { Lexer.init with
        col := 13
        symbol_table := [{ name := bytes "x", code := 100 }]
        next_code := 101
        tokens := [ { type := TOKEN_KEYWORD, value := bytes "integer", lexeme := bytes "integer" },
                    { type := TOKEN_ID, value := bytes "100", lexeme := bytes "x" },
                    { type := TOKEN_DELIMITER, value := bytes ":", lexeme := bytes ":" },
                    { type := TOKEN_OPERATOR, value := bytes "=", lexeme := bytes "=" },
                    { type := TOKEN_INTEGER, value := bytes "5", lexeme := bytes "5" },
                    { type := TOKEN_DELIMITER, value := bytes ";", lexeme := bytes ";" } ]
        errors := [] } := by
  decide

/-- C3: take any sequence of calls `pre` from the initial state in which `name`
does not occur, so that the next call `get_id_code(name)` is the first one for
`name`; after any further calls `post`, `get_id_code(name)` returns the code of
that first call and leaves the whole state (table and `next_code` included)
unchanged. -/
theorem get_id_code_known_name (pre post : List (List Nat)) (name : List Nat)
    (_first : name ∉ pre) :
    get_id_code name (calls post (get_id_code name (calls pre Lexer.init)).2) =
      ((get_id_code name (calls pre Lexer.init)).1,
        calls post (get_id_code name (calls pre Lexer.init)).2) :=
  get_id_code_of_lookup
    (lookup_preserved_calls post _ (lookup_after_get_id_code name (calls pre Lexer.init)))

/-- C3 at the calls `a`, `b`, `x`, `c`, `a`, `x`: the first call for `x` returns
102 and so does the second, which changes nothing. -/
theorem get_id_code_known_name_witness :
    bytes "x" ∉ [bytes "a", bytes "b"] ∧
    get_id_code (bytes "x")
        (calls [bytes "c", bytes "a"] (get_id_code (bytes "x") (calls [bytes "a", bytes "b"] Lexer.init)).2) =
      ((get_id_code (bytes "x") (calls [bytes "a", bytes "b"] Lexer.init)).1,
        calls [bytes "c", bytes "a"] (get_id_code (bytes "x") (calls [bytes "a", bytes "b"] Lexer.init)).2) ∧
    (get_id_code (bytes "x") (calls [bytes "a", bytes "b"] Lexer.init)).1 = 102 :=
  ⟨by decide, get_id_code_known_name [bytes "a", bytes "b"] [bytes "c", bytes "a"] (bytes "x") (by decide),
    by decide⟩

/-- C4: in any sequence of calls from the initial state, the call that introduces
a name not asked for before returns `100 + (k - 1)`, where `k - 1` is the number
of distinct names asked for before it, however often those were repeated; so the
first name gets 100, and a name introduced later gets a strictly larger code. -/
theorem get_id_code_new_name (pre : List (List Nat)) (name : List Nat) (hnew : name ∉ pre) :
    (get_id_code name (calls pre Lexer.init)).1 = 100 + pre.dedup.length ∧
    (pre = [] → (get_id_code name (calls pre Lexer.init)).1 = 100) ∧
    (∀ (mid : List (List Nat)) (later : List Nat), later ∉ pre ++ name :: mid →
      (get_id_code name (calls pre Lexer.init)).1 <
        (get_id_code later (calls (pre ++ name :: mid) Lexer.init)).1) := by
  have key : ∀ (l : List (List Nat)) (n : List Nat), n ∉ l →
      (get_id_code n (calls l Lexer.init)).1 = 100 + l.dedup.length := by
    intro l n hn
    have h := calls_init_spec l
    simp only [get_id_code, (h.1 n).2 hn, h.2]
  refine ⟨key pre name hnew, ?_, ?_⟩
  · intro h
    rw [key pre name hnew, h]
    rfl
  · intro mid later hl
    rw [key pre name hnew, key _ later hl]
    have h1 : (pre ++ [name]).dedup.length ≤ (pre ++ name :: mid).dedup.length := by
      rw [← List.card_toFinset, ← List.card_toFinset]
      apply Finset.card_le_card
      intro x hx
      simp only [List.toFinset_append, List.toFinset_cons, Finset.mem_union, List.mem_toFinset,
        Finset.mem_insert, List.toFinset_nil, Finset.mem_singleton, insert_emptyc_eq] at hx ⊢
      tauto
    rw [dedup_length_snoc_of_not_mem hnew] at h1
    omega

/-- C4 at the calls `x`, `x`, `z`, `x`, `y`: `y` is the third distinct name and gets
the code 102. -/
theorem get_id_code_new_name_witness :
    bytes "y" ∉ [bytes "x", bytes "x", bytes "z", bytes "x"] ∧
    (get_id_code (bytes "y") (calls [bytes "x", bytes "x", bytes "z", bytes "x"] Lexer.init)).1 = 102 :=
  ⟨by decide, (get_id_code_new_name [bytes "x", bytes "x", bytes "z", bytes "x"] (bytes "y") (by decide)).1⟩

/-! ## Character classes and the dispatch order -/

theorem is_operator_start_iff (c : Nat) :
    is_operator_start c = true ↔
      c = 0 ∨ c = 43 ∨ c = 45 ∨ c = 33 ∨ c = 42 ∨ c = 47 ∨ c = 37 ∨ c = 94 ∨ c = 60 ∨ c = 62 ∨
        c = 61 ∨ c = 124 ∨ c = 38 := by
  simp [is_operator_start, strchr]

theorem is_delimiter_iff (c : Nat) :
    is_delimiter c = true ↔
      c = 0 ∨ c = 40 ∨ c = 41 ∨ c = 91 ∨ c = 93 ∨ c = 123 ∨ c = 125 ∨ c = 44 ∨ c = 59 ∨ c = 58 ∨
        c = 34 ∨ c = 39 := by
  simp [is_delimiter, strchr]

theorem isalpha_iff (c : Nat) : isalpha c = true ↔ (65 ≤ c ∧ c ≤ 90) ∨ (97 ≤ c ∧ c ≤ 122) := by
  simp [isalpha]

theorem isdigit_iff (c : Nat) : isdigit c = true ↔ 48 ≤ c ∧ c ≤ 57 := by
  simp [isdigit]

theorem isspace_iff (c : Nat) : isspace c = true ↔ c = 32 ∨ (9 ≤ c ∧ c ≤ 13) := by
  simp [isspace]

theorem ident_char_iff (c : Nat) :
    ident_char c = true ↔ (65 ≤ c ∧ c ≤ 90) ∨ (97 ≤ c ∧ c ≤ 122) ∨ (48 ≤ c ∧ c ≤ 57) ∨ c = 95 := by
  simp [ident_char, isalnum, isalpha, isdigit, or_assoc]

theorem not_true_of_not_iff {b : Bool} {p : Prop} (h : b = true ↔ p) (hp : ¬ p) : b = false := by
  cases b with
  | false => rfl
  | true => exact absurd (h.1 rfl) hp

/-- A letter or underscore passes every earlier test of the dispatch. -/
theorem dispatch_of_ident_start {c : Nat} (hc : isalpha c = true ∨ c = 95) :
    isspace c = false ∧ c ≠ 34 ∧ c ≠ 47 ∧ is_operator_start c = false ∧ is_delimiter c = false := by
  have h : (65 ≤ c ∧ c ≤ 90) ∨ (97 ≤ c ∧ c ≤ 122) ∨ c = 95 := by
    rcases hc with h | h
    · rcases (isalpha_iff c).1 h with h | h
      · exact Or.inl h
      · exact Or.inr (Or.inl h)
    · exact Or.inr (Or.inr h)
  refine ⟨not_true_of_not_iff (isspace_iff c) (by omega), by omega, by omega,
    not_true_of_not_iff (is_operator_start_iff c) (by omega),
    not_true_of_not_iff (is_delimiter_iff c) (by omega)⟩

/-- A digit passes every earlier test of the dispatch. -/
theorem dispatch_of_digit {c : Nat} (hc : isdigit c = true) :
    isspace c = false ∧ c ≠ 34 ∧ c ≠ 47 ∧ is_operator_start c = false ∧ is_delimiter c = false ∧
      isalpha c = false ∧ c ≠ 95 := by
  have h := (isdigit_iff c).1 hc
  refine ⟨not_true_of_not_iff (isspace_iff c) (by omega), by omega, by omega,
    not_true_of_not_iff (is_operator_start_iff c) (by omega),
    not_true_of_not_iff (is_delimiter_iff c) (by omega),
    not_true_of_not_iff (isalpha_iff c) (by omega), by omega⟩

theorem cstr_eq_self {l : List Nat} (h : ∀ b ∈ l, b ≠ 0) : cstr l = l := by
  unfold cstr
  rw [List.takeWhile_eq_self_iff]
  intro b hb
  simpa using h b hb

/-! ## The inner loops of `scan` -/

/-- Closed form of the inner loops: the maximal run of bytes satisfying `p` is
read, and the buffer keeps what fits in its first `MAX_IDENT_LEN - 1` places. -/
theorem scan_run_eq (p : Nat → Bool) (src : List Nat) :
    ∀ (buf : List Nat) (col : Nat), buf.length ≤ MAX_IDENT_LEN - 1 →
      scan_run p src buf col =
        (src.dropWhile p, (buf ++ src.takeWhile p).take (MAX_IDENT_LEN - 1),
          col + (src.takeWhile p).length) := by
  induction src with
  | nil =>
    intro buf col hb
    simp [scan_run, List.take_of_length_le hb]
  | cons c src ih =>
    intro buf col hb
    unfold scan_run
    by_cases hp : p c = true
    · simp only [hp, if_true, List.dropWhile_cons_of_pos, List.takeWhile_cons_of_pos,
        List.length_cons]
      by_cases hl : buf.length < MAX_IDENT_LEN - 1
      · rw [if_pos hl, ih (buf ++ [c]) (col + 1) (by simpa using hl)]
        simp [Nat.add_assoc, Nat.add_comm 1]
      · rw [if_neg hl, ih buf (col + 1) hb]
        have hb' : MAX_IDENT_LEN - 1 ≤ buf.length := Nat.le_of_not_lt hl
        rw [List.take_append_of_le_length hb', List.take_append_of_le_length hb']
        simp [Nat.add_assoc, Nat.add_comm 1]
    · simp [hp, List.take_of_length_le hb]

/-- The inner loop on a maximal run `w` followed by `rest`. -/
theorem scan_run_maximal (p : Nat → Bool) (w rest buf : List Nat) (col : Nat)
    (hb : buf.length ≤ MAX_IDENT_LEN - 1) (hw : ∀ b ∈ w, p b = true)
    (hmax : ∀ b ∈ rest.head?, p b = false) :
    scan_run p (w ++ rest) buf col =
      (rest, (buf ++ w).take (MAX_IDENT_LEN - 1), col + w.length) := by
  have hd : rest.dropWhile p = rest := by
    cases rest with
    | nil => rfl
    | cons b rest => simp [List.dropWhile_cons, hmax b (by simp)]
  have ht : rest.takeWhile p = [] := by
    cases rest with
    | nil => rfl
    | cons b rest => simp [List.takeWhile_cons, hmax b (by simp)]
  rw [scan_run_eq p _ buf col hb, List.dropWhile_append_of_pos hw,
    List.takeWhile_append_of_pos hw, hd, ht, List.append_nil]

theorem keywords_length : ∀ k ∈ keywords, k.length ≤ 8 := by decide

theorem take_mem_keywords_iff (w : List Nat) :
    w.take (MAX_IDENT_LEN - 1) ∈ keywords ↔ w ∈ keywords := by
  by_cases h : w.length ≤ MAX_IDENT_LEN - 1
  · rw [List.take_of_length_le h]
  · have h1 : (w.take (MAX_IDENT_LEN - 1)).length = MAX_IDENT_LEN - 1 := by
      rw [List.length_take]
      omega
    constructor
    · intro hk
      have := keywords_length _ hk
      rw [h1] at this
      simp [MAX_IDENT_LEN] at this
    · intro hk
      have := keywords_length _ hk
      simp only [MAX_IDENT_LEN] at h
      omega

theorem ident_bytes_ne_zero {c : Nat} {w : List Nat} (hc : isalpha c = true ∨ c = 95)
    (hw : ∀ b ∈ w, ident_char b = true) : ∀ b ∈ c :: w, b ≠ 0 := by
  intro b hb
  rcases List.mem_cons.1 hb with h | h
  · subst h
    rcases hc with h | h
    · have := (isalpha_iff b).1 h
      omega
    · omega
  · have := (ident_char_iff b).1 (hw b h)
    omega

theorem digit_bytes_ne_zero {c : Nat} {d : List Nat} (hc : isdigit c = true)
    (hd : ∀ b ∈ d, isdigit b = true) : ∀ b ∈ c :: d, b ≠ 0 := by
  intro b hb
  have hb' : isdigit b = true := by
    rcases List.mem_cons.1 hb with h | h
    · exact h ▸ hc
    · exact hd b h
  have := (isdigit_iff b).1 hb'
  omega

theorem ne_zero_of_mem_take {l : List Nat} {n : Nat} (h : ∀ b ∈ l, b ≠ 0) :
    ∀ b ∈ l.take n, b ≠ 0 :=
  fun b hb => h b (List.mem_of_mem_take hb)

/-- The identifier branch of `scan_step` on a maximal run. -/
theorem scan_step_ident (c : Nat) (w rest : List Nat) (s : Lexer)
    (hc : isalpha c = true ∨ c = 95) (hw : ∀ b ∈ w, ident_char b = true)
    (hmax : ∀ b ∈ rest.head?, ident_char b = false) :
    scan_step c (w ++ rest) s =
      if (c :: w).take (MAX_IDENT_LEN - 1) ∈ keywords then
        (rest, emit_token TOKEN_KEYWORD ((c :: w).take (MAX_IDENT_LEN - 1))
          ((c :: w).take (MAX_IDENT_LEN - 1)) { s with col := s.col + w.length })
      else
        (rest, emit_token TOKEN_ID
          (sprintf_d (get_id_code ((c :: w).take (MAX_IDENT_LEN - 1))
            { s with col := s.col + w.length }).1)
          ((c :: w).take (MAX_IDENT_LEN - 1))
          (get_id_code ((c :: w).take (MAX_IDENT_LEN - 1)) { s with col := s.col + w.length }).2) := by
  obtain ⟨h1, h2, h3, h4, h5⟩ := dispatch_of_ident_start hc
  have hc' : (isalpha c || decide (c = 95)) = true := by
    rcases hc with h | h
    · simp [h]
    · simp [h]
  have hrun := scan_run_maximal ident_char w rest [c] s.col (by simp [MAX_IDENT_LEN]) hw hmax
  simp only [List.singleton_append] at hrun
  unfold scan_step
  simp only [h1, h2, h3, h4, h5, hc', hrun, if_false, if_true, Bool.false_eq_true]
  by_cases hk : (c :: w).take (MAX_IDENT_LEN - 1) ∈ keywords
  · have hk' : keywords.contains ((c :: w).take (MAX_IDENT_LEN - 1)) = true := by simpa using hk
    rw [if_pos hk', if_pos hk]
  · have hk' : ¬ keywords.contains ((c :: w).take (MAX_IDENT_LEN - 1)) = true := by simpa using hk
    rw [if_neg hk', if_neg hk]

/-- The number branch of `scan_step` on a maximal run of digits. -/
theorem scan_step_digits (c : Nat) (d rest : List Nat) (s : Lexer)
    (hc : isdigit c = true) (hd : ∀ b ∈ d, isdigit b = true)
    (hmax : ∀ b ∈ rest.head?, isdigit b = false) :
    scan_step c (d ++ rest) s =
      (rest, emit_token TOKEN_INTEGER ((c :: d).take (MAX_IDENT_LEN - 1))
        ((c :: d).take (MAX_IDENT_LEN - 1)) { s with col := s.col + d.length }) := by
  obtain ⟨h1, h2, h3, h4, h5, h6, h7⟩ := dispatch_of_digit hc
  have hrun := scan_run_maximal isdigit d rest [c] s.col (by simp [MAX_IDENT_LEN]) hd hmax
  simp only [List.singleton_append] at hrun
  unfold scan_step
  simp only [h1, h2, h3, h4, h5, h6, h7, hc, hrun, if_false, if_true, Bool.false_eq_true,
    Bool.or_self, decide_False]

/-- C6: when the dispatch meets a maximal run `c :: w` of letters, digits and
underscores that starts with a letter or underscore, it reads the whole run and
emits exactly one token; that token is a Keyword exactly when the run is, byte
for byte and so case-sensitively, one of the 15 reserved words array, boolean,
char, else, false, for, function, if, integer, print, return, string, true, void,
while, in which case its value and its lexeme are the run and `symbol_table` and
`next_code` are untouched; otherwise the token is an Identifier. -/
theorem keyword_iff_reserved_word (c : Nat) (w rest : List Nat) (s : Lexer)
    (hc : isalpha c = true ∨ c = 95) (hw : ∀ b ∈ w, ident_char b = true)
    (hmax : ∀ b ∈ rest.head?, ident_char b = false) :
    (scan_step c (w ++ rest) s).1 = rest ∧
    ∃ t : Token, (scan_step c (w ++ rest) s).2.tokens = s.tokens ++ [t] ∧
      (t.type = TOKEN_KEYWORD ↔
        c :: w ∈ ["array", "boolean", "char", "else", "false", "for", "function", "if", "integer",
          "print", "return", "string", "true", "void", "while"].map bytes) ∧
      (c :: w ∈ ["array", "boolean", "char", "else", "false", "for", "function", "if", "integer",
          "print", "return", "string", "true", "void", "while"].map bytes →
        t = { type := TOKEN_KEYWORD, value := c :: w, lexeme := c :: w } ∧
        (scan_step c (w ++ rest) s).2.symbol_table = s.symbol_table ∧
        (scan_step c (w ++ rest) s).2.next_code = s.next_code) ∧
      (c :: w ∉ ["array", "boolean", "char", "else", "false", "for", "function", "if", "integer",
          "print", "return", "string", "true", "void", "while"].map bytes →
        t.type = TOKEN_ID) := by
  rw [← keywords_eq, scan_step_ident c w rest s hc hw hmax]
  have hz := cstr_eq_self (ne_zero_of_mem_take (n := MAX_IDENT_LEN - 1) (ident_bytes_ne_zero hc hw))
  by_cases hk : c :: w ∈ keywords
  · have hlen : (c :: w).length ≤ MAX_IDENT_LEN - 1 :=
      le_trans (keywords_length _ hk) (by simp [MAX_IDENT_LEN])
    have htake : (c :: w).take (MAX_IDENT_LEN - 1) = c :: w := List.take_of_length_le hlen
    rw [if_pos ((take_mem_keywords_iff _).2 hk)]
    rw [htake] at hz
    refine ⟨rfl, ⟨TOKEN_KEYWORD, c :: w, c :: w⟩, ?_, ?_, ?_, ?_⟩
    · simp only [emit_token, hz, htake]
    · simp [hk]
    · intro _
      exact ⟨rfl, rfl, rfl⟩
    · intro h
      exact absurd hk h
  · rw [if_neg (fun h => hk ((take_mem_keywords_iff _).1 h))]
    refine ⟨rfl, ?_⟩
    simp only [emit_token, get_id_code_tokens]
    exact ⟨_, rfl, by simp [hk], fun h => absurd h hk, fun _ => rfl⟩

/-- C6 at the word `while` followed by `(`: one Keyword token with value and
lexeme `while`, the symbol table untouched; and at the word `If` followed by a
space: the token is an Identifier. -/
theorem keyword_iff_reserved_word_witness :
    ((isalpha 119 = true ∨ 119 = 95) ∧ bytes "while" = 119 :: bytes "hile" ∧
      (scan_step 119 (bytes "hile" ++ bytes "(") Lexer.init).1 = bytes "(" ∧
      (scan_step 119 (bytes "hile" ++ bytes "(") Lexer.init).2.tokens =
        Lexer.init.tokens ++
          [{ type := TOKEN_KEYWORD, value := bytes "while", lexeme := bytes "while" }] ∧
      (scan_step 119 (bytes "hile" ++ bytes "(") Lexer.init).2.symbol_table = [] ∧
      (scan_step 119 (bytes "hile" ++ bytes "(") Lexer.init).2.next_code = 100) ∧
    ((isalpha 73 = true ∨ 73 = 95) ∧ bytes "If" = 73 :: [102] ∧
      ∃ t : Token, (scan_step 73 ([102] ++ [32]) Lexer.init).2.tokens = Lexer.init.tokens ++ [t] ∧
        t.type = TOKEN_ID) := by
  obtain ⟨k0, t, k1, _, k3, _⟩ :=
    keyword_iff_reserved_word 119 (bytes "hile") (bytes "(") Lexer.init (by decide) (by decide)
      (by intro b hb; cases hb; decide)
  obtain ⟨kt, ks, kn⟩ := k3 (by decide)
  rw [kt] at k1
  obtain ⟨_, t', h1, _, _, h4⟩ :=
    keyword_iff_reserved_word 73 [102] [32] Lexer.init (by decide) (by decide)
      (by intro b hb; cases hb; decide)
  exact ⟨⟨by decide, by decide, k0, k1, ks, kn⟩, by decide, by decide, t', h1, h4 (by decide)⟩

/-- C10 (counterexample): a maximal run of 256 digits `1` yields one Integer token
whose lexeme and value are only the first 255 digits, not the run. -/
theorem integer_token_truncated :
    tokens_of (scan (List.replicate 256 49)) =
      [{ type := TOKEN_INTEGER, value := List.replicate 255 49, lexeme := List.replicate 255 49 }] ∧
    List.replicate 255 49 ≠ List.replicate 256 49 := by
  decide

/-- C10 (amended): when the dispatch meets a maximal run `c :: d` of decimal
digits, of any length and with any leading zeros, it reads the whole run and emits
exactly one Integer token whose lexeme and value are both the first
`MAX_IDENT_LEN - 1 = 255` digits of the run, verbatim; this is the run itself
when it has at most 255 digits. -/
theorem integer_token (c : Nat) (d rest : List Nat) (s : Lexer)
    (hc : isdigit c = true) (hd : ∀ b ∈ d, isdigit b = true)
    (hmax : ∀ b ∈ rest.head?, isdigit b = false) :
    scan_step c (d ++ rest) s =
      (rest, { s with
        col := s.col + d.length
        tokens := s.tokens ++ [{ type := TOKEN_INTEGER, value := (c :: d).take 255,
                                 lexeme := (c :: d).take 255 }] }) ∧
    ((c :: d).length ≤ 255 → (c :: d).take 255 = c :: d) := by
  refine ⟨?_, fun h => List.take_of_length_le h⟩
  rw [scan_step_digits c d rest s hc hd hmax]
  have hz := cstr_eq_self (ne_zero_of_mem_take (n := MAX_IDENT_LEN - 1) (digit_bytes_ne_zero hc hd))
  simp only [emit_token, hz]
  rfl

/-- C10 at the run `007` followed by `;`. -/
theorem integer_token_witness :
    isdigit 48 = true ∧ (∀ b ∈ [48, 55], isdigit b = true) ∧
    scan_step 48 ([48, 55] ++ [59]) Lexer.init =
      ([59], { Lexer.init with
        col := 3
        tokens := [{ type := TOKEN_INTEGER, value := bytes "007", lexeme := bytes "007" }] }) :=
  ⟨by decide, by decide,
    (integer_token 48 [48, 55] [59] Lexer.init (by decide) (by decide)
      (by intro b hb; cases hb; decide)).1⟩

/-! ## Comments -/

theorem no_close_tail {c : Nat} {t : List Nat} (h : no_close (c :: t)) : no_close t :=
  fun hi => h (List.infix_cons hi)

theorem head_ne_slash_of_no_close {b : Nat} {t : List Nat} (h : no_close (42 :: b :: t)) :
    b ≠ 47 := by
  intro hb
  subst hb
  exact h ⟨[], t, rfl⟩

theorem skip_block_comment_newline (sl sc : Nat) (rest : List Nat) (s : Lexer) :
    skip_block_comment sl sc (10 :: rest) s =
      skip_block_comment sl sc rest { s with line := s.line + 1, col := 1 } := by
  simp [skip_block_comment]

theorem skip_block_comment_close (sl sc : Nat) (rest : List Nat) (s : Lexer) :
    skip_block_comment sl sc (42 :: 47 :: rest) s = (rest, { s with col := s.col + 1 }) := by
  simp [skip_block_comment]

theorem skip_block_comment_star (sl sc : Nat) (rest : List Nat) (s : Lexer)
    (h : ∀ b ∈ rest.head?, b ≠ 47) :
    skip_block_comment sl sc (42 :: rest) s =
      skip_block_comment sl sc rest { s with col := s.col + 1 } := by
  cases rest with
  | nil => simp [skip_block_comment]
  | cons b rest =>
    have hb : b ≠ 47 := h b (by simp)
    unfold skip_block_comment
    simp only [show (42 : Nat) ≠ 10 by decide, if_false, if_true]
    split
    · rename_i heq
      exact absurd (List.cons.inj heq).1 hb
    · rfl

theorem skip_block_comment_other (sl sc c : Nat) (rest : List Nat) (s : Lexer)
    (h1 : c ≠ 10) (h2 : c ≠ 42) :
    skip_block_comment sl sc (c :: rest) s =
      skip_block_comment sl sc rest { s with col := s.col + 1 } := by
  simp [skip_block_comment, h1, h2]

/-- A block comment closed by the first `*/`: everything up to and including it
is skipped; only `line` and `col` change. -/
theorem skip_block_comment_closed (sl sc : Nat) (body rest : List Nat) :
    ∀ s : Lexer, no_close body →
      ∃ line col, skip_block_comment sl sc (body ++ 42 :: 47 :: rest) s =
        (rest, { s with line := line, col := col }) := by
  induction body with
  | nil =>
    intro s _
    exact ⟨s.line, s.col + 1, skip_block_comment_close sl sc rest s⟩
  | cons c body ih =>
    intro s h
    have ht := no_close_tail h
    by_cases h1 : c = 10
    · subst h1
      obtain ⟨line, col, e⟩ := ih { s with line := s.line + 1, col := 1 } ht
      exact ⟨line, col, by rw [List.cons_append, skip_block_comment_newline, e]⟩
    · by_cases h2 : c = 42
      · subst h2
        have hh : ∀ b ∈ (body ++ 42 :: 47 :: rest).head?, b ≠ 47 := by
          intro b hb
          cases body with
          | nil =>
            simp at hb
            omega
          | cons b' body =>
            simp at hb
            subst hb
            exact head_ne_slash_of_no_close h
        obtain ⟨line, col, e⟩ := ih { s with col := s.col + 1 } ht
        exact ⟨line, col, by rw [List.cons_append, skip_block_comment_star _ _ _ _ hh, e]⟩
      · obtain ⟨line, col, e⟩ := ih { s with col := s.col + 1 } ht
        exact ⟨line, col, by rw [List.cons_append, skip_block_comment_other _ _ _ _ _ h1 h2, e]⟩

/-- A block comment that is never closed: the whole input is read and one
diagnostic is reported at the given start position. -/
theorem skip_block_comment_open (sl sc : Nat) (body : List Nat) :
    ∀ s : Lexer, no_close body →
      ∃ line col, skip_block_comment sl sc body s =
        ([], { s with line := line, col := col,
                      errors := s.errors ++ [.UnterminatedBlockComment sl sc] }) := by
  induction body with
  | nil =>
    intro s _
    exact ⟨s.line, s.col, rfl⟩
  | cons c body ih =>
    intro s h
    have ht := no_close_tail h
    by_cases h1 : c = 10
    · subst h1
      obtain ⟨line, col, e⟩ := ih { s with line := s.line + 1, col := 1 } ht
      exact ⟨line, col, by rw [skip_block_comment_newline, e]⟩
    · by_cases h2 : c = 42
      · subst h2
        have hh : ∀ b ∈ body.head?, b ≠ 47 := by
          intro b hb
          cases body with
          | nil => simp at hb
          | cons b' body =>
            simp at hb
            subst hb
            exact head_ne_slash_of_no_close h
        obtain ⟨line, col, e⟩ := ih { s with col := s.col + 1 } ht
        exact ⟨line, col, by rw [skip_block_comment_star _ _ _ _ hh, e]⟩
      · obtain ⟨line, col, e⟩ := ih { s with col := s.col + 1 } ht
        exact ⟨line, col, by rw [skip_block_comment_other _ _ _ _ _ h1 h2, e]⟩

/-- A line comment that ends at a newline. -/
theorem skip_line_comment_newline (body rest : List Nat) :
    ∀ s : Lexer, 10 ∉ body →
      skip_line_comment (body ++ 10 :: rest) s = (rest, { s with line := s.line + 1, col := 1 }) := by
  induction body with
  | nil =>
    intro s _
    simp [skip_line_comment]
  | cons c body ih =>
    intro s h
    have hc : c ≠ 10 := fun e => h (by simp [e])
    have hb : 10 ∉ body := fun e => h (List.mem_cons_of_mem _ e)
    rw [List.cons_append, skip_line_comment, if_neg hc, ih _ hb]

/-- A line comment that ends with the input. -/
theorem skip_line_comment_eof (body : List Nat) :
    ∀ s : Lexer, 10 ∉ body →
      skip_line_comment body s = ([], { s with col := s.col + body.length }) := by
  induction body with
  | nil =>
    intro s _
    rfl
  | cons c body ih =>
    intro s h
    have hc : c ≠ 10 := fun e => h (by simp [e])
    have hb : 10 ∉ body := fun e => h (List.mem_cons_of_mem _ e)
    rw [skip_line_comment, if_neg hc, ih _ hb]
    simp [Nat.add_assoc, Nat.add_comm 1]

/-! ## The main loop -/

theorem scan_loop_nil (fuel : Nat) (s : Lexer) : scan_loop fuel [] s = some s := by
  cases fuel <;> rfl

theorem scan_loop_succ (fuel c : Nat) (rest : List Nat) (s : Lexer) :
    scan_loop (fuel + 1) (c :: rest) s =
      scan_loop fuel (scan_step c rest s).1 (scan_step c rest s).2 := rfl

theorem scan_step_space (c : Nat) (rest : List Nat) (s : Lexer) (h : isspace c = true) :
    scan_step c rest s =
      (rest, if c = 10 then { s with line := s.line + 1, col := 1 } else { s with col := s.col + 1 }) := by
  unfold scan_step
  rw [if_pos h]
  split <;> rfl

theorem scan_step_line_comment (rest : List Nat) (s : Lexer) :
    scan_step 47 (47 :: rest) s = skip_line_comment rest { s with col := s.col + 1 } := by
  simp [scan_step, isspace]

theorem scan_step_block_comment (rest : List Nat) (s : Lexer) :
    scan_step 47 (42 :: rest) s =
      skip_block_comment s.line s.col rest { s with col := s.col + 1 } := by
  simp [scan_step, isspace]

/-- From any state and with enough fuel, the main loop reads a blank input to its
end without emitting a token. -/
theorem scan_loop_blank {src : List Nat} (h : blank src) :
    ∀ (fuel : Nat) (s : Lexer), src.length ≤ fuel →
      ∃ s', scan_loop fuel src s = some s' ∧ s'.tokens = s.tokens := by
  induction h with
  | nil =>
    intro fuel s _
    exact ⟨s, scan_loop_nil fuel s, rfl⟩
  | space c rest hc _ ih =>
    intro fuel s hf
    cases fuel with
    | zero => simp at hf
    | succ fuel =>
      rw [scan_loop_succ, scan_step_space c rest s hc]
      obtain ⟨s', e, ht⟩ := ih fuel _ (by simpa using hf)
      refine ⟨s', e, ?_⟩
      rw [ht]
      split <;> rfl
  | line_comment body rest hb _ ih =>
    intro fuel s hf
    cases fuel with
    | zero => simp at hf
    | succ fuel =>
      rw [scan_loop_succ, scan_step_line_comment, skip_line_comment_newline body rest _ hb]
      simp only [List.length_cons, List.length_append] at hf
      obtain ⟨s', e, ht⟩ := ih fuel _ (by omega)
      exact ⟨s', e, ht⟩
  | line_comment_eof body hb =>
    intro fuel s hf
    cases fuel with
    | zero => simp at hf
    | succ fuel =>
      rw [scan_loop_succ, scan_step_line_comment, skip_line_comment_eof body _ hb]
      exact ⟨_, scan_loop_nil _ _, rfl⟩
  | block_comment body rest hb _ ih =>
    intro fuel s hf
    cases fuel with
    | zero => simp at hf
    | succ fuel =>
      obtain ⟨line, col, e⟩ :=
        skip_block_comment_closed s.line s.col body rest { s with col := s.col + 1 } hb
      rw [scan_loop_succ, scan_step_block_comment, e]
      simp only [List.length_cons, List.length_append] at hf
      obtain ⟨s', e', ht⟩ := ih fuel _ (by omega)
      exact ⟨s', e', ht⟩
  | block_comment_eof body hb =>
    intro fuel s hf
    cases fuel with
    | zero => simp at hf
    | succ fuel =>
      obtain ⟨line, col, e⟩ :=
        skip_block_comment_open s.line s.col body { s with col := s.col + 1 } hb
      rw [scan_loop_succ, scan_step_block_comment, e]
      exact ⟨_, scan_loop_nil _ _, rfl⟩

/-- C7: on an input made only of whitespace, line comments and block comments
(closed, or left open at the end of the input), `scan` runs to the end of the
input and emits no token. -/
theorem scan_blank_no_tokens (src : List Nat) (h : blank src) :
    ∃ s, scan src = some s ∧ s.tokens = [] :=
  scan_loop_blank h src.length Lexer.init (le_refl _)

/-- C7 at the input ` /**/` + newline + `// x` + newline + `/* `. -/
theorem scan_blank_no_tokens_witness :
    blank (bytes " /**/\n// x\n/* ") ∧
    ∃ s, scan (bytes " /**/\n// x\n/* ") = some s ∧ s.tokens = [] := by
  have hb : blank (bytes " /**/\n// x\n/* ") := by
    refine blank.space 32 _ (by decide) ?_
    refine blank.block_comment [] _ (by decide) ?_
    refine blank.space 10 _ (by decide) ?_
    refine blank.line_comment [32, 120] _ (by decide) ?_
    exact blank.block_comment_eof [32] (by decide)
  exact ⟨hb, scan_blank_no_tokens _ hb⟩

/-! ## String literals -/

theorem process_string_loop_quote (sl sc : Nat) (rest buffer : List Nat) (s : Lexer) :
    process_string_loop sl sc (34 :: rest) buffer s =
      (rest, { s with
        col := s.col + 1
        tokens := s.tokens ++ [{ type := TOKEN_STRING, value := cstr (buffer ++ [34]),
                                 lexeme := cstr (buffer ++ [34]) }] }) := by
  rw [process_string_loop.eq_def]
  simp [emit_token]

theorem process_string_loop_plain (sl sc c : Nat) (rest buffer : List Nat) (s : Lexer)
    (h1 : c ≠ 34) (h2 : c ≠ 92) (hlen : (buffer ++ [c]).length < MAX_STR_LEN - 2) :
    process_string_loop sl sc (c :: rest) buffer s =
      process_string_loop sl sc rest (buffer ++ [c])
        (if c = 10 then { s with line := s.line + 1, col := 1 } else { s with col := s.col + 1 }) := by
  have hl : ¬ (buffer ++ [c]).length ≥ MAX_STR_LEN - 2 := Nat.not_le.2 hlen
  rw [process_string_loop.eq_def]
  simp only [h1, h2, hl, if_false]

theorem process_string_loop_escape (sl sc x : Nat) (rest buffer : List Nat) (s : Lexer)
    (hlen : (buffer ++ (StrItem.escape x).decode).length < MAX_STR_LEN - 2) :
    process_string_loop sl sc (92 :: x :: rest) buffer s =
      process_string_loop sl sc rest (buffer ++ (StrItem.escape x).decode)
        { s with col := s.col + 1 } := by
  have hb : (if x = 110 then buffer ++ [10]
      else if x = 116 then buffer ++ [9]
      else if x = 34 then buffer ++ [34]
      else if x = 92 then buffer ++ [92]
      else buffer ++ [92, x]) = buffer ++ (StrItem.escape x).decode := by
    simp only [StrItem.decode]
    split_ifs <;> rfl
  have hl : ¬ (buffer ++ (StrItem.escape x).decode).length ≥ MAX_STR_LEN - 2 := Nat.not_le.2 hlen
  rw [process_string_loop.eq_def]
  simp only [show (92 : Nat) ≠ 34 by decide, if_false, if_true, hb, hl]

/-- The loop of `process_string` on a terminated body that fits in the buffer. -/
theorem process_string_loop_terminated (sl sc : Nat) (rest : List Nat) (items : List StrItem) :
    ∀ (buffer : List Nat) (s : Lexer), (∀ i ∈ items, i.valid) →
      buffer.length + (decode items).length < MAX_STR_LEN - 2 →
      ∃ line col, process_string_loop sl sc (raw_body items ++ 34 :: rest) buffer s =
        (rest, { s with
          line := line
          col := col
          tokens := s.tokens ++ [{ type := TOKEN_STRING,
                                   value := cstr (buffer ++ decode items ++ [34]),
                                   lexeme := cstr (buffer ++ decode items ++ [34]) }] }) := by
  induction items with
  | nil =>
    intro buffer s _ _
    exact ⟨s.line, s.col + 1, by simp [raw_body, decode, process_string_loop_quote]⟩
  | cons i items ih =>
    intro buffer s hv hlen
    have hvi := hv i (by simp)
    have hvs : ∀ j ∈ items, j.valid := fun j hj => hv j (List.mem_cons_of_mem _ hj)
    simp only [decode, List.length_append] at hlen
    cases i with
    | plain c =>
      obtain ⟨h1, h2⟩ := hvi
      simp only [StrItem.decode, List.length_singleton] at hlen
      obtain ⟨line, col, e⟩ := ih (buffer ++ [c])
        (if c = 10 then { s with line := s.line + 1, col := 1 } else { s with col := s.col + 1 })
        hvs (by simp only [List.length_append, List.length_singleton]; omega)
      refine ⟨line, col, ?_⟩
      refine (process_string_loop_plain sl sc c (raw_body items ++ 34 :: rest) buffer s h1 h2
        (by simp only [List.length_append, List.length_singleton]; omega)).trans (e.trans ?_)
      simp only [decode, StrItem.decode, List.append_assoc, List.singleton_append]
      split <;> rfl
    | escape x =>
      obtain ⟨line, col, e⟩ := ih (buffer ++ (StrItem.escape x).decode) { s with col := s.col + 1 }
        hvs (by simp only [List.length_append]; omega)
      refine ⟨line, col, ?_⟩
      refine (process_string_loop_escape sl sc x (raw_body items ++ 34 :: rest) buffer s
        (by simp only [List.length_append]; omega)).trans (e.trans ?_)
      simp only [decode, List.append_assoc]

/-- Whatever the input, the loop of `process_string` stops at a suffix of the
stream, leaves the symbol table alone and emits exactly one String token, whose
value and lexeme are the same C string. -/
theorem process_string_loop_frame (sl sc : Nat) (src buffer : List Nat) (s : Lexer) :
    (process_string_loop sl sc src buffer s).1 <:+ src ∧
    (process_string_loop sl sc src buffer s).2.symbol_table = s.symbol_table ∧
    (process_string_loop sl sc src buffer s).2.next_code = s.next_code ∧
    ∃ buf, (process_string_loop sl sc src buffer s).2.tokens =
      s.tokens ++ [{ type := TOKEN_STRING, value := cstr buf, lexeme := cstr buf }] := by
  induction src, buffer, s using process_string_loop.induct sl sc with
  | case1 buffer s =>
    rw [process_string_loop.eq_def]
    exact ⟨List.suffix_refl _, rfl, rfl, buffer, rfl⟩
  | case2 rest buffer s =>
    rw [process_string_loop.eq_def]
    exact ⟨List.suffix_cons _ _, rfl, rfl, buffer ++ [34], rfl⟩
  | case3 buffer s buffer1 h1 h2 =>
    rw [process_string_loop.eq_def]
    simp only [h2, if_false, if_true]
    rw [if_pos h1]
    exact ⟨List.nil_suffix, rfl, rfl, buffer1, rfl⟩
  | case4 buffer s buffer1 h1 h2 =>
    rw [process_string_loop.eq_def]
    simp only [h2, if_false, if_true]
    rw [if_neg h1]
    exact ⟨List.nil_suffix, rfl, rfl, buffer1, rfl⟩
  | case5 buffer s esc rest1 buffer1 h1 h2 =>
    rw [process_string_loop.eq_def]
    simp only [h2, if_false, if_true]
    rw [if_pos h1]
    exact ⟨(List.suffix_cons _ _).trans (List.suffix_cons _ _), rfl, rfl, buffer1, rfl⟩
  | case6 buffer s esc rest1 buffer1 s1 h1 h2 ih =>
    rw [process_string_loop.eq_def]
    simp only [h2, if_false, if_true]
    rw [if_neg h1]
    obtain ⟨i1, i2, i3, i4⟩ := ih
    exact ⟨i1.trans ((List.suffix_cons _ _).trans (List.suffix_cons _ _)), i2, i3, i4⟩
  | case7 c rest buffer s h1 h2 buffer1 h3 =>
    rw [process_string_loop.eq_def]
    simp only [h1, h2, if_false]
    rw [if_pos h3]
    refine ⟨List.suffix_cons _ _, ?_, ?_, buffer1, ?_⟩ <;> (simp only [emit_token, report]; split <;> rfl)
  | case8 c rest buffer s h1 h2 buffer1 s1 h3 ih =>
    rw [process_string_loop.eq_def]
    simp only [h1, h2, if_false]
    rw [if_neg h3]
    obtain ⟨i1, i2, i3, i4⟩ := ih
    refine ⟨i1.trans (List.suffix_cons _ _), ?_, ?_, ?_⟩
    · rw [i2]; simp only [s1]; split <;> rfl
    · rw [i3]; simp only [s1]; split <;> rfl
    · obtain ⟨buf, hb⟩ := i4
      refine ⟨buf, ?_⟩
      rw [hb]; simp only [s1]; split <;> rfl

theorem process_string_frame (src : List Nat) (s : Lexer) :
    (process_string src s).1 <:+ src ∧
    (process_string src s).2.symbol_table = s.symbol_table ∧
    (process_string src s).2.next_code = s.next_code ∧
    ∃ buf, (process_string src s).2.tokens =
      s.tokens ++ [{ type := TOKEN_STRING, value := cstr buf, lexeme := cstr buf }] :=
  process_string_loop_frame s.line s.col src [34] { s with col := s.col + 1 }

/-- Whatever the input, `skip_block_comment` stops at a suffix of the stream and
touches neither the symbol table nor the tokens. -/
theorem skip_block_comment_frame (sl sc : Nat) (src : List Nat) (s : Lexer) :
    (skip_block_comment sl sc src s).1 <:+ src ∧
    (skip_block_comment sl sc src s).2.symbol_table = s.symbol_table ∧
    (skip_block_comment sl sc src s).2.next_code = s.next_code ∧
    (skip_block_comment sl sc src s).2.tokens = s.tokens := by
  induction src, s using skip_block_comment.induct sl sc with
  | case1 s => exact ⟨List.suffix_refl _, rfl, rfl, rfl⟩
  | case2 rest s s1 ih =>
    rw [skip_block_comment_newline]
    obtain ⟨i1, i2, i3, i4⟩ := ih
    exact ⟨i1.trans (List.suffix_cons _ _), i2, i3, i4⟩
  | case3 s rest1 _ =>
    rw [skip_block_comment_close]
    exact ⟨(List.suffix_cons _ _).trans (List.suffix_cons _ _), rfl, rfl, rfl⟩
  | case4 rest s s1 h _ ih =>
    rw [skip_block_comment_star sl sc rest s (by
      intro b hb e
      subst e
      cases rest with
      | nil => simp at hb
      | cons b' rest' =>
        simp at hb
        exact h rest' (by rw [hb]))]
    obtain ⟨i1, i2, i3, i4⟩ := ih
    exact ⟨i1.trans (List.suffix_cons _ _), i2, i3, i4⟩
  | case5 c rest s s1 h1 h2 ih =>
    rw [skip_block_comment_other sl sc c rest s h1 h2]
    obtain ⟨i1, i2, i3, i4⟩ := ih
    exact ⟨i1.trans (List.suffix_cons _ _), i2, i3, i4⟩

/-- Whatever the input, `skip_line_comment` stops at a suffix of the stream and
touches neither the symbol table nor the tokens. -/
theorem skip_line_comment_frame (src : List Nat) :
    ∀ s : Lexer, (skip_line_comment src s).1 <:+ src ∧
      (skip_line_comment src s).2.symbol_table = s.symbol_table ∧
      (skip_line_comment src s).2.next_code = s.next_code ∧
      (skip_line_comment src s).2.tokens = s.tokens := by
  induction src with
  | nil => intro s; exact ⟨List.suffix_refl _, rfl, rfl, rfl⟩
  | cons c rest ih =>
    intro s
    unfold skip_line_comment
    by_cases h : c = 10
    · rw [if_pos h]
      exact ⟨List.suffix_cons _ _, rfl, rfl, rfl⟩
    · rw [if_neg h]
      obtain ⟨i1, i2, i3, i4⟩ := ih { s with col := s.col + 1 }
      exact ⟨i1.trans (List.suffix_cons _ _), i2, i3, i4⟩

/-! ## Decimal text of a code -/

theorem decimal_digits_spec (fuel : Nat) :
    ∀ (n : Nat) (acc : List Nat), n < fuel →
      ∃ ds, decimal_digits fuel n acc = ds ++ acc ∧ (∀ b ∈ ds, 48 ≤ b) ∧
        ds.foldl (fun a b => 10 * a + (b - 48)) 0 = n := by
  induction fuel with
  | zero => intro n acc h; omega
  | succ fuel ih =>
    intro n acc h
    unfold decimal_digits
    by_cases h0 : n / 10 = 0
    · rw [if_pos h0]
      refine ⟨[48 + n % 10], rfl, ?_, ?_⟩
      · intro b hb
        simp at hb
        omega
      · simp only [List.foldl_cons, List.foldl_nil]
        omega
    · rw [if_neg h0]
      obtain ⟨ds, e, hge, hv⟩ := ih (n / 10) ((48 + n % 10) :: acc) (by omega)
      refine ⟨ds ++ [48 + n % 10], ?_, ?_, ?_⟩
      · rw [e]; simp
      · intro b hb
        rcases List.mem_append.1 hb with h' | h'
        · exact hge b h'
        · simp at h'
          omega
      · rw [List.foldl_append, hv]
        simp only [List.foldl_cons, List.foldl_nil]
        omega

theorem sprintf_d_injective {m n : Nat} (h : sprintf_d m = sprintf_d n) : m = n := by
  obtain ⟨ds, e, _, hv⟩ := decimal_digits_spec (m + 1) m [] (Nat.lt_succ_self m)
  obtain ⟨ds', e', _, hv'⟩ := decimal_digits_spec (n + 1) n [] (Nat.lt_succ_self n)
  unfold sprintf_d at h
  rw [e, e'] at h
  simp only [List.append_nil] at h
  rw [← hv, ← hv', h]

theorem cstr_sprintf_d (n : Nat) : cstr (sprintf_d n) = sprintf_d n := by
  obtain ⟨ds, e, hge, _⟩ := decimal_digits_spec (n + 1) n [] (Nat.lt_succ_self n)
  apply cstr_eq_self
  intro b hb
  unfold sprintf_d at hb
  rw [e, List.append_nil] at hb
  have := hge b hb
  omega

/-! ## The branches of the dispatch -/

theorem scan_step_quote (rest : List Nat) (s : Lexer) :
    scan_step 34 rest s = process_string rest s := by
  simp [scan_step, isspace]

theorem scan_step_slash (rest : List Nat) (s : Lexer)
    (h : ∀ b ∈ rest.head?, b ≠ 47 ∧ b ≠ 42) :
    scan_step 47 rest s =
      (rest, { s with
        col := s.col + 1
        tokens := s.tokens ++ [{ type := TOKEN_OPERATOR, value := [47], lexeme := [47] }] }) := by
  cases rest with
  | nil => simp [scan_step, isspace, emit_token, cstr]
  | cons b rest =>
    obtain ⟨h1, h2⟩ := h b (by simp)
    unfold scan_step
    simp only [show isspace 47 = false by decide, show (47 : Nat) ≠ 34 by decide, if_false,
      if_true, Bool.false_eq_true]
    split
    · rename_i heq
      exact absurd (List.cons.inj heq).1 h1
    · rename_i heq
      exact absurd (List.cons.inj heq).1 h2
    · simp [emit_token, cstr]

theorem scan_step_operator_pair (c next : Nat) (rest : List Nat) (s : Lexer)
    (h47 : c ≠ 47) (hop : is_operator_start c = true)
    (hm : is_multi_char_operator c (some next) = true) :
    scan_step c (next :: rest) s =
      (rest, { s with
        col := s.col + 2
        tokens := s.tokens ++ [{ type := TOKEN_OPERATOR, value := [c, next], lexeme := [c, next] }] }) := by
  have hc := (is_operator_start_iff c).1 hop
  have hs : isspace c = false := not_true_of_not_iff (isspace_iff c) (by omega)
  have h34 : c ≠ 34 := by omega
  have hcn : c ≠ 0 ∧ next ≠ 0 := by
    simp [is_multi_char_operator] at hm
    omega
  have hz : cstr [c, next] = [c, next] :=
    cstr_eq_self (by intro b hb; simp at hb; omega)
  unfold scan_step
  simp only [hs, h34, h47, hop, hm, if_false, if_true, Bool.false_eq_true, emit_token, hz]

theorem scan_step_operator_single (c : Nat) (rest : List Nat) (s : Lexer)
    (h47 : c ≠ 47) (hop : is_operator_start c = true)
    (hm : is_multi_char_operator c rest.head? = false) :
    scan_step c rest s =
      (rest, { s with
        col := s.col + 1
        tokens := s.tokens ++ [{ type := TOKEN_OPERATOR, value := cstr [c], lexeme := cstr [c] }] }) := by
  have hc := (is_operator_start_iff c).1 hop
  have hs : isspace c = false := not_true_of_not_iff (isspace_iff c) (by omega)
  have h34 : c ≠ 34 := by omega
  unfold scan_step
  cases rest with
  | nil =>
    simp only [List.head?_nil] at hm
    simp only [hs, h34, h47, hop, hm, if_false, if_true, Bool.false_eq_true, emit_token]
  | cons b rest =>
    simp only [List.head?_cons] at hm
    simp only [hs, h34, h47, hop, hm, if_false, if_true, Bool.false_eq_true, emit_token]

theorem scan_step_delimiter (c : Nat) (rest : List Nat) (s : Lexer)
    (h34 : c ≠ 34) (hop : is_operator_start c = false) (hd : is_delimiter c = true) :
    scan_step c rest s =
      (rest, { s with
        col := s.col + 1
        tokens := s.tokens ++ [{ type := TOKEN_DELIMITER, value := [c], lexeme := [c] }] }) := by
  have hc := (is_delimiter_iff c).1 hd
  have h0 : c ≠ 0 := by
    intro h
    rw [h] at hop
    exact absurd hop (by decide)
  have hs : isspace c = false := not_true_of_not_iff (isspace_iff c) (by omega)
  have h47 : c ≠ 47 := by omega
  have hz : cstr [c] = [c] := cstr_eq_self (by intro b hb; simp at hb; omega)
  unfold scan_step
  simp only [hs, h34, h47, hop, hd, if_false, if_true, Bool.false_eq_true, emit_token, hz]

theorem scan_step_invalid (c : Nat) (rest : List Nat) (s : Lexer)
    (hs : isspace c = false) (h34 : c ≠ 34) (hop : is_operator_start c = false)
    (hd : is_delimiter c = false) (ha : isalpha c = false) (hu : c ≠ 95)
    (hdig : isdigit c = false) :
    scan_step c rest s =
      (rest, { s with
        col := s.col + 1
        errors := s.errors ++ [.InvalidCharacter c s.line s.col] }) := by
  have h47 : c ≠ 47 := by
    intro h
    rw [h] at hop
    exact absurd hop (by decide)
  unfold scan_step
  simp only [hs, h34, h47, hop, hd, ha, hu, hdig, if_false, Bool.false_eq_true, report,
    Bool.or_self, decide_False]

/-! ## What one iteration of the main loop can do -/

theorem maximal_run_split (p : Nat → Bool) (l : List Nat) :
    ∃ w rest, l = w ++ rest ∧ (∀ b ∈ w, p b = true) ∧ (∀ b ∈ rest.head?, p b = false) := by
  refine ⟨l.takeWhile p, l.dropWhile p, (List.takeWhile_append_dropWhile p l).symm,
    fun b hb => (List.mem_takeWhile_imp hb), ?_⟩
  intro b hb
  induction l with
  | nil => simp at hb
  | cons a l ih =>
    by_cases ha : p a = true
    · rw [List.dropWhile_cons_of_pos ha] at hb
      exact ih hb
    · rw [List.dropWhile_cons_of_neg ha] at hb
      simp at hb
      subst hb
      simpa using ha

theorem get_id_code_same_fields (name : List Nat) (s s0 : Lexer)
    (h1 : s0.symbol_table = s.symbol_table) (h2 : s0.next_code = s.next_code) :
    (get_id_code name s0).1 = (get_id_code name s).1 ∧
    (get_id_code name s0).2.symbol_table = (get_id_code name s).2.symbol_table ∧
    (get_id_code name s0).2.next_code = (get_id_code name s).2.next_code := by
  unfold get_id_code
  rw [h1]
  cases lookup s.symbol_table name with
  | some c => exact ⟨rfl, h1, h2⟩
  | none => simp [h1, h2]

/-- One iteration of the main loop reads at least the byte it was given, and
either leaves the symbol table alone and emits at most one token, not an
Identifier and with value equal to lexeme, or it is the identifier branch: one
call of `get_id_code` on a NUL-free name and one Identifier token. -/
theorem scan_step_frame (c : Nat) (rest : List Nat) (s : Lexer) :
    (scan_step c rest s).1 <:+ rest ∧
    (((scan_step c rest s).2.symbol_table = s.symbol_table ∧
      (scan_step c rest s).2.next_code = s.next_code ∧
      ((scan_step c rest s).2.tokens = s.tokens ∨
        ∃ t, (scan_step c rest s).2.tokens = s.tokens ++ [t] ∧ t.type ≠ TOKEN_ID ∧
          t.value = t.lexeme)) ∨
     (∃ ident, (∀ b ∈ ident, b ≠ 0) ∧
        (scan_step c rest s).2.symbol_table = (get_id_code ident s).2.symbol_table ∧
        (scan_step c rest s).2.next_code = (get_id_code ident s).2.next_code ∧
        (scan_step c rest s).2.tokens =
          s.tokens ++ [{ type := TOKEN_ID, value := sprintf_d (get_id_code ident s).1,
                         lexeme := ident }])) := by
  by_cases hs : isspace c = true
  · rw [scan_step_space c rest s hs]
    refine ⟨List.suffix_refl _, Or.inl ?_⟩
    split <;> exact ⟨rfl, rfl, Or.inl rfl⟩
  by_cases h34 : c = 34
  · subst h34
    rw [scan_step_quote]
    obtain ⟨i1, i2, i3, buf, i4⟩ := process_string_frame rest s
    exact ⟨i1, Or.inl ⟨i2, i3, Or.inr ⟨_, i4, by simp, rfl⟩⟩⟩
  by_cases h47 : c = 47
  · subst h47
    cases rest with
    | nil =>
      rw [scan_step_slash [] s (by simp)]
      exact ⟨List.suffix_refl _, Or.inl ⟨rfl, rfl, Or.inr ⟨_, rfl, by simp, rfl⟩⟩⟩
    | cons b rest =>
      by_cases hb1 : b = 47
      · subst hb1
        rw [scan_step_line_comment]
        obtain ⟨i1, i2, i3, i4⟩ := skip_line_comment_frame rest { s with col := s.col + 1 }
        exact ⟨i1.trans (List.suffix_cons _ _), Or.inl ⟨i2, i3, Or.inl i4⟩⟩
      by_cases hb2 : b = 42
      · subst hb2
        rw [scan_step_block_comment]
        obtain ⟨i1, i2, i3, i4⟩ :=
          skip_block_comment_frame s.line s.col rest { s with col := s.col + 1 }
        exact ⟨i1.trans (List.suffix_cons _ _), Or.inl ⟨i2, i3, Or.inl i4⟩⟩
      rw [scan_step_slash (b :: rest) s (by intro b' hb'; simp at hb'; subst hb'; exact ⟨hb1, hb2⟩)]
      exact ⟨List.suffix_refl _, Or.inl ⟨rfl, rfl, Or.inr ⟨_, rfl, by simp, rfl⟩⟩⟩
  by_cases hop : is_operator_start c = true
  · by_cases hm : is_multi_char_operator c rest.head? = true
    · cases rest with
      | nil => simp [is_multi_char_operator] at hm
      | cons next rest =>
        rw [scan_step_operator_pair c next rest s h47 hop hm]
        exact ⟨List.suffix_cons _ _, Or.inl ⟨rfl, rfl, Or.inr ⟨_, rfl, by simp, rfl⟩⟩⟩
    · rw [scan_step_operator_single c rest s h47 hop (by simpa using hm)]
      exact ⟨List.suffix_refl _, Or.inl ⟨rfl, rfl, Or.inr ⟨_, rfl, by simp, rfl⟩⟩⟩
  have hop' : is_operator_start c = false := by simpa using hop
  by_cases hd : is_delimiter c = true
  · rw [scan_step_delimiter c rest s h34 hop' hd]
    exact ⟨List.suffix_refl _, Or.inl ⟨rfl, rfl, Or.inr ⟨_, rfl, by simp, rfl⟩⟩⟩
  by_cases ha : isalpha c = true ∨ c = 95
  · obtain ⟨w, rest', e, hw, hmax⟩ := maximal_run_split ident_char rest
    rw [e, scan_step_ident c w rest' s ha hw hmax]
    have hnz := ne_zero_of_mem_take (n := MAX_IDENT_LEN - 1) (ident_bytes_ne_zero ha hw)
    have hz := cstr_eq_self hnz
    by_cases hk : (c :: w).take (MAX_IDENT_LEN - 1) ∈ keywords
    · rw [if_pos hk]
      exact ⟨List.suffix_append _ _, Or.inl ⟨rfl, rfl, Or.inr ⟨_, rfl, by simp, rfl⟩⟩⟩
    · rw [if_neg hk]
      refine ⟨List.suffix_append _ _, ?_⟩
      obtain ⟨g1, g2, g3⟩ := get_id_code_same_fields ((c :: w).take (MAX_IDENT_LEN - 1))
        s { s with col := s.col + w.length } rfl rfl
      refine Or.inr ⟨_, hnz, g2, g3, ?_⟩
      simp only [emit_token, get_id_code_tokens, hz, cstr_sprintf_d, g1]
  by_cases hdig : isdigit c = true
  · obtain ⟨d, rest', e, hd', hmax⟩ := maximal_run_split isdigit rest
    rw [e, scan_step_digits c d rest' s hdig hd' hmax]
    exact ⟨List.suffix_append _ _, Or.inl ⟨rfl, rfl, Or.inr ⟨_, rfl, by simp, rfl⟩⟩⟩
  rw [scan_step_invalid c rest s (by simpa using hs) h34 hop' (by simpa using hd)
    (by simpa using fun h => ha (Or.inl h)) (fun h => ha (Or.inr h)) (by simpa using hdig)]
  exact ⟨List.suffix_refl _, Or.inl ⟨rfl, rfl, Or.inl rfl⟩⟩

theorem scan_step_length (c : Nat) (rest : List Nat) (s : Lexer) :
    (scan_step c rest s).1.length ≤ rest.length :=
  (scan_step_frame c rest s).1.length_le

/-- Induction along the main loop: a property kept by every iteration holds at the
end, and the length of the input is enough fuel to reach the end. -/
theorem scan_loop_induction (P : Lexer → Prop)
    (hstep : ∀ c rest s, P s → P (scan_step c rest s).2) :
    ∀ (fuel : Nat) (src : List Nat) (s : Lexer), src.length ≤ fuel → P s →
      ∃ s', scan_loop fuel src s = some s' ∧ P s' := by
  intro fuel
  induction fuel with
  | zero =>
    intro src s hf hP
    have : src = [] := List.length_eq_zero.1 (Nat.le_zero.1 hf)
    subst this
    exact ⟨s, rfl, hP⟩
  | succ fuel ih =>
    intro src s hf hP
    cases src with
    | nil => exact ⟨s, rfl, hP⟩
    | cons c rest =>
      rw [scan_loop_succ]
      exact ih _ _ (le_trans (scan_step_length c rest s) (by simpa using hf)) (hstep c rest s hP)

/-- The length of the input is enough fuel: `scan` always reaches the end. -/
theorem scan_loop_isSome (fuel : Nat) (src : List Nat) (s : Lexer) (h : src.length ≤ fuel) :
    ∃ s', scan_loop fuel src s = some s' := by
  obtain ⟨s', e, _⟩ := scan_loop_induction (fun _ => True) (fun _ _ _ _ => trivial) fuel src s h trivial
  exact ⟨s', e⟩

/-! ## Consistency of the symbol table and the tokens -/

theorem consistent_init : consistent Lexer.init := by
  refine ⟨?_, ?_, ?_, ?_⟩
  · intro n c h
    simp [Lexer.init, lookup] at h
  · intro n₁ n₂ c h
    simp [Lexer.init, lookup] at h
  · intro t ht
    simp [Lexer.init] at ht
  · intro t ht
    simp [Lexer.init] at ht

/-- A call of `get_id_code` keeps the codes below `next_code` and distinct for
distinct names. -/
theorem get_id_code_table (name : List Nat) (s : Lexer)
    (h1 : ∀ n c, lookup s.symbol_table n = some c → c < s.next_code)
    (h2 : ∀ n₁ n₂ c, lookup s.symbol_table n₁ = some c → lookup s.symbol_table n₂ = some c →
      n₁ = n₂) :
    (∀ n c, lookup (get_id_code name s).2.symbol_table n = some c →
      c < (get_id_code name s).2.next_code) ∧
    (∀ n₁ n₂ c, lookup (get_id_code name s).2.symbol_table n₁ = some c →
      lookup (get_id_code name s).2.symbol_table n₂ = some c → n₁ = n₂) := by
  unfold get_id_code
  cases hl : lookup s.symbol_table name with
  | some code => exact ⟨h1, h2⟩
  | none =>
    simp only [lookup_cons]
    constructor
    · intro n c h
      by_cases hn : name = n
      · rw [if_pos hn] at h
        have := Option.some.inj h
        omega
      · rw [if_neg hn] at h
        have := h1 n c h
        omega
    · intro n₁ n₂ c ha hb
      by_cases hn₁ : name = n₁
      · by_cases hn₂ : name = n₂
        · rw [← hn₁, ← hn₂]
        · rw [if_pos hn₁] at ha
          rw [if_neg hn₂] at hb
          have := Option.some.inj ha
          have := h1 n₂ c hb
          omega
      · by_cases hn₂ : name = n₂
        · rw [if_neg hn₁] at ha
          rw [if_pos hn₂] at hb
          have := Option.some.inj hb
          have := h1 n₁ c ha
          omega
        · rw [if_neg hn₁] at ha
          rw [if_neg hn₂] at hb
          exact h2 n₁ n₂ c ha hb

/-- Every iteration of the main loop keeps the state consistent. -/
theorem consistent_step (c : Nat) (rest : List Nat) (s : Lexer) (h : consistent s) :
    consistent (scan_step c rest s).2 := by
  obtain ⟨h1, h2, h3, h4⟩ := h
  rcases (scan_step_frame c rest s).2 with ⟨e1, e2, e3⟩ | ⟨ident, _, e1, e2, e3⟩
  · unfold consistent
    rw [e1, e2]
    rcases e3 with e3 | ⟨t, e3, ht1, ht2⟩
    · rw [e3]
      exact ⟨h1, h2, h3, h4⟩
    · rw [e3]
      refine ⟨h1, h2, ?_, ?_⟩
      · intro t' ht' hid
        rcases List.mem_append.1 ht' with hm | hm
        · exact h3 t' hm hid
        · rw [List.mem_singleton.1 hm] at hid
          exact absurd hid ht1
      · intro t' ht' hid
        rcases List.mem_append.1 ht' with hm | hm
        · exact h4 t' hm hid
        · rw [List.mem_singleton.1 hm]
          exact ht2
  · obtain ⟨g1, g2⟩ := get_id_code_table ident s h1 h2
    unfold consistent
    rw [e1, e2, e3]
    refine ⟨g1, g2, ?_, ?_⟩
    · intro t' ht' hid
      rcases List.mem_append.1 ht' with hm | hm
      · obtain ⟨code, hc1, hc2⟩ := h3 t' hm hid
        exact ⟨code, lookup_preserved ident hc1, hc2⟩
      · rw [List.mem_singleton.1 hm]
        exact ⟨_, lookup_after_get_id_code ident s, rfl⟩
    · intro t' ht' hid
      rcases List.mem_append.1 ht' with hm | hm
      · exact h4 t' hm hid
      · rw [List.mem_singleton.1 hm] at hid
        exact absurd rfl hid

/-- Every scan from the initial state reaches the end of the input in a
consistent state. -/
theorem scan_consistent (src : List Nat) : ∃ s, scan src = some s ∧ consistent s :=
  scan_loop_induction consistent consistent_step src.length src Lexer.init (le_refl _)
    consistent_init

/-- C5 (counterexample): the two names `a...ab` and `a...ac` (255 letters `a`, then
`b` or `c`) are different maximal runs, yet the two Identifier tokens scanned
from them carry the same value `100`. -/
theorem long_names_share_a_code :
    List.replicate 255 97 ++ [98] ≠ List.replicate 255 97 ++ [99] ∧
    tokens_of (scan ((List.replicate 255 97 ++ [98]) ++ [32] ++ (List.replicate 255 97 ++ [99]))) =
      [ { type := TOKEN_ID, value := bytes "100", lexeme := List.replicate 255 97 },
        { type := TOKEN_ID, value := bytes "100", lexeme := List.replicate 255 97 } ] := by
  decide

/-- C5 (amended): in every scan, two Identifier tokens carry the same value exactly
when their lexemes are equal; and the lexeme of the Identifier token scanned from
a maximal run `c :: w` of letters, digits and underscores is the first
`MAX_IDENT_LEN - 1 = 255` bytes of that run, its value being the decimal text of
the code `get_id_code` gives for these bytes. -/
theorem identifier_codes :
    (∀ src : List Nat, ∃ s, scan src = some s ∧
      ∀ t₁ ∈ s.tokens, ∀ t₂ ∈ s.tokens, t₁.type = TOKEN_ID → t₂.type = TOKEN_ID →
        (t₁.value = t₂.value ↔ t₁.lexeme = t₂.lexeme)) ∧
    (∀ (c : Nat) (w rest : List Nat) (s : Lexer), (isalpha c = true ∨ c = 95) →
      (∀ b ∈ w, ident_char b = true) → (∀ b ∈ rest.head?, ident_char b = false) →
      (c :: w).take 255 ∉ keywords →
      (scan_step c (w ++ rest) s).2.tokens =
        s.tokens ++ [{ type := TOKEN_ID,
                       value := sprintf_d (get_id_code ((c :: w).take 255) s).1,
                       lexeme := (c :: w).take 255 }]) := by
  constructor
  · intro src
    obtain ⟨s, e, _, h2, h3, _⟩ := scan_consistent src
    refine ⟨s, e, ?_⟩
    intro t₁ ht₁ t₂ ht₂ hid₁ hid₂
    obtain ⟨c₁, hl₁, hv₁⟩ := h3 t₁ ht₁ hid₁
    obtain ⟨c₂, hl₂, hv₂⟩ := h3 t₂ ht₂ hid₂
    constructor
    · intro hv
      rw [hv₁, hv₂] at hv
      rw [sprintf_d_injective hv] at hl₁
      exact h2 _ _ _ hl₁ hl₂
    · intro hl
      rw [hl, hl₂] at hl₁
      rw [hv₁, hv₂, Option.some.inj hl₁]
  · intro c w rest s hc hw hmax hk
    have hk' : (c :: w).take (MAX_IDENT_LEN - 1) ∉ keywords := hk
    rw [scan_step_ident c w rest s hc hw hmax, if_neg hk']
    have hz := cstr_eq_self (ne_zero_of_mem_take (n := MAX_IDENT_LEN - 1) (ident_bytes_ne_zero hc hw))
    obtain ⟨g1, _, _⟩ := get_id_code_same_fields ((c :: w).take (MAX_IDENT_LEN - 1))
        s { s with col := s.col + w.length } rfl rfl
    simp only [emit_token, get_id_code_tokens, hz, cstr_sprintf_d, g1]
    rfl

/-- C5 at the input `x := x + 1`: both occurrences of `x` carry the value `100`. -/
theorem identifier_codes_witness :
    tokens_of (scan (bytes "x := x + 1")) =
      [ { type := TOKEN_ID, value := bytes "100", lexeme := bytes "x" },
        { type := TOKEN_DELIMITER, value := bytes ":", lexeme := bytes ":" },
        { type := TOKEN_OPERATOR, value := bytes "=", lexeme := bytes "=" },
        { type := TOKEN_ID, value := bytes "100", lexeme := bytes "x" },
        { type := TOKEN_OPERATOR, value := bytes "+", lexeme := bytes "+" },
        { type := TOKEN_INTEGER, value := bytes "1", lexeme := bytes "1" } ] ∧
    ∃ s, scan (bytes "x := x + 1") = some s ∧
      ∀ t₁ ∈ s.tokens, ∀ t₂ ∈ s.tokens, t₁.type = TOKEN_ID → t₂.type = TOKEN_ID →
        (t₁.value = t₂.value ↔ t₁.lexeme = t₂.lexeme) :=
  ⟨by decide, identifier_codes.1 (bytes "x := x + 1")⟩

/-- C8 (counterexample): the terminated literal with body `a`, NUL, `b` (three
plain bytes) yields one String token and no diagnostic, but the token's value is
`"a`, the text before the NUL byte, not quote, `a`, NUL, `b`, quote. -/
theorem string_value_cut_at_nul :
    (∀ i ∈ [StrItem.plain 97, StrItem.plain 0, StrItem.plain 98], i.valid) ∧
    (process_string (raw_body [StrItem.plain 97, StrItem.plain 0, StrItem.plain 98] ++ [34])
        Lexer.init).2.tokens =
      [{ type := TOKEN_STRING, value := [34, 97], lexeme := [34, 97] }] ∧
    (process_string (raw_body [StrItem.plain 97, StrItem.plain 0, StrItem.plain 98] ++ [34])
        Lexer.init).2.errors = [] ∧
    [34] ++ decode [StrItem.plain 97, StrItem.plain 0, StrItem.plain 98] ++ [34] =
      [34, 97, 0, 98, 34] := by
  decide

/-- C8 (amended): for a terminated string literal whose body is a sequence of
plain bytes (neither quote nor backslash) and backslash pairs, and whose decoded
text keeps the buffer length below `MAX_STR_LEN - 2 = 1022`, `process_string`
reads up to and including the closing quote, emits exactly one String token and
no diagnostic, and the token's value and lexeme are the C string held by
quote ++ decode(body) ++ quote: that text cut at its first NUL byte, hence the
whole of it when the decoded body holds no NUL byte. -/
theorem string_token (items : List StrItem) (rest : List Nat) (s : Lexer)
    (hv : ∀ i ∈ items, i.valid) (hlen : 1 + (decode items).length < MAX_STR_LEN - 2) :
    (∃ line col, process_string (raw_body items ++ 34 :: rest) s =
      (rest, { s with
        line := line
        col := col
        tokens := s.tokens ++ [{ type := TOKEN_STRING,
                                 value := cstr ([34] ++ decode items ++ [34]),
                                 lexeme := cstr ([34] ++ decode items ++ [34]) }] })) ∧
    (0 ∉ decode items → cstr ([34] ++ decode items ++ [34]) = [34] ++ decode items ++ [34]) := by
  constructor
  · exact process_string_loop_terminated s.line s.col rest items [34] { s with col := s.col + 1 }
      hv (by simpa using hlen)
  · intro h0
    apply cstr_eq_self
    intro b hb
    simp only [List.mem_append, List.mem_singleton] at hb
    rcases hb with (hb | hb) | hb
    · omega
    · intro e
      exact h0 (e ▸ hb)
    · omega

/-- C8 at the literal `"a\nb"`: quote, `a`, newline byte, `b`, quote. -/
theorem string_token_witness :
    (∀ i ∈ [StrItem.plain 97, StrItem.escape 110, StrItem.plain 98], i.valid) ∧
    bytes "\"a\\nb\"" = [34] ++ raw_body [StrItem.plain 97, StrItem.escape 110, StrItem.plain 98] ++ [34] ∧
    cstr ([34] ++ decode [StrItem.plain 97, StrItem.escape 110, StrItem.plain 98] ++ [34]) =
      [34, 97, 10, 98, 34] ∧
    ∃ line col,
      process_string (raw_body [StrItem.plain 97, StrItem.escape 110, StrItem.plain 98] ++ 34 :: [])
          Lexer.init =
        ([], { Lexer.init with
          line := line
          col := col
          tokens := Lexer.init.tokens ++
            [{ type := TOKEN_STRING,
               value := cstr ([34] ++ decode [StrItem.plain 97, StrItem.escape 110, StrItem.plain 98] ++ [34]),
               lexeme := cstr ([34] ++ decode [StrItem.plain 97, StrItem.escape 110, StrItem.plain 98] ++ [34]) }] }) :=
  ⟨by decide, by decide, by decide,
    (string_token [StrItem.plain 97, StrItem.escape 110, StrItem.plain 98] [] Lexer.init
      (by decide) (by decide)).1⟩

/-- C9 (counterexample): on the six bytes `"a\nb"` (quote, `a`, backslash, `n`,
`b`, quote) the only token is a String whose lexeme is quote, `a`, newline byte,
`b`, quote: five bytes that occur nowhere in the source text. -/
theorem string_lexeme_not_raw :
    tokens_of (scan (bytes "\"a\\nb\"")) =
      [{ type := TOKEN_STRING, value := [34, 97, 10, 98, 34], lexeme := [34, 97, 10, 98, 34] }] ∧
    bytes "\"a\\nb\"" = [34, 97, 92, 110, 98, 34] ∧
    ¬ [34, 97, 10, 98, 34] <:+: bytes "\"a\\nb\"" := by
  decide

/-! ## Invalid characters -/

/-- A byte other than NUL that belongs to none of the classes of the dispatch is
reported as an invalid character at the current position; no token is emitted,
only that byte is read and the scan goes on with the next one. -/
theorem scan_step_invalid_of_no_class (b : Nat) (rest : List Nat) (s : Lexer)
    (h0 : b ≠ 0) (hs : isspace b = false) (h34 : b ≠ 34)
    (hop : b ∉ [43, 45, 33, 42, 47, 37, 94, 60, 62, 61, 124, 38])
    (hd : b ∉ [40, 41, 91, 93, 123, 125, 44, 59, 58, 34, 39])
    (ha : isalpha b = false) (hu : b ≠ 95) (hdig : isdigit b = false) :
    scan_step b rest s =
      (rest, { s with
        col := s.col + 1
        errors := s.errors ++ [.InvalidCharacter b s.line s.col] }) := by
  have hop' : is_operator_start b = false := by
    apply not_true_of_not_iff (is_operator_start_iff b)
    simp at hop
    omega
  have hd' : is_delimiter b = false := by
    apply not_true_of_not_iff (is_delimiter_iff b)
    simp at hd
    omega
  exact scan_step_invalid b rest s hs h34 hop' hd' ha hu hdig

/-- C11 (evaluation of the code): the byte 0 is not whitespace, not the quote, none
of the twelve operator-start characters, none of the delimiters, not a letter,
underscore or digit; yet in every state the dispatch reports nothing for it and
emits an Operator token with empty lexeme and value, because the test
`strchr("+-!*/%^<>=|&", c)` of `is_operator_start` finds the terminating NUL. -/
theorem scan_step_nul (rest : List Nat) (s : Lexer) :
    (isspace 0 = false ∧ (0 : Nat) ≠ 34 ∧
      (0 : Nat) ∉ [43, 45, 33, 42, 47, 37, 94, 60, 62, 61, 124, 38] ∧
      (0 : Nat) ∉ [40, 41, 91, 93, 123, 125, 44, 59, 58, 34, 39] ∧
      isalpha 0 = false ∧ (0 : Nat) ≠ 95 ∧ isdigit 0 = false) ∧
    scan_step 0 rest s =
      (rest, { s with
        col := s.col + 1
        tokens := s.tokens ++ [{ type := TOKEN_OPERATOR, value := [], lexeme := [] }] }) := by
  refine ⟨by decide, ?_⟩
  rw [scan_step_operator_single 0 rest s (by decide) (by decide)
    (by simp [is_multi_char_operator])]
  rfl

/-! ## Positions -/

theorem raw_body_plain (w : List Nat) : raw_body (w.map StrItem.plain) = w := by
  induction w with
  | nil => rfl
  | cons c w ih => simp [raw_body, StrItem.raw, ih]

theorem decode_plain (w : List Nat) : decode (w.map StrItem.plain) = w := by
  induction w with
  | nil => rfl
  | cons c w ih => simp [decode, StrItem.decode, ih]

/-- A plain byte that brings the buffer to `MAX_STR_LEN - 2` bytes ends the
literal: the diagnostic is reported at the start position and the buffer is
emitted as it is, without a closing quote. -/
theorem process_string_loop_full (sl sc c : Nat) (rest buffer : List Nat) (s : Lexer)
    (h1 : c ≠ 34) (h2 : c ≠ 92) (hlen : (buffer ++ [c]).length ≥ MAX_STR_LEN - 2) :
    process_string_loop sl sc (c :: rest) buffer s =
      (rest, { s with
        line := if c = 10 then s.line + 1 else s.line
        col := if c = 10 then 1 else s.col + 1
        tokens := s.tokens ++ [{ type := TOKEN_STRING, value := cstr (buffer ++ [c]),
                                 lexeme := cstr (buffer ++ [c]) }]
        errors := s.errors ++ [.StringTooLong sl sc] }) := by
  rw [process_string_loop.eq_def]
  simp only [h1, h2, hlen, if_false, if_true, emit_token, report]
  split <;> rfl

/-- The loop of `process_string` over plain bytes that keep the buffer below
`MAX_STR_LEN - 2` bytes: they are all stored. -/
theorem process_string_loop_plain_run (sl sc : Nat) (rest : List Nat) (w : List Nat) :
    ∀ (buffer : List Nat) (s : Lexer), (∀ b ∈ w, b ≠ 34 ∧ b ≠ 92) →
      buffer.length + w.length < MAX_STR_LEN - 2 →
      ∃ line col, process_string_loop sl sc (w ++ rest) buffer s =
        process_string_loop sl sc rest (buffer ++ w) { s with line := line, col := col } := by
  induction w with
  | nil =>
    intro buffer s _ _
    exact ⟨s.line, s.col, by simp⟩
  | cons c w ih =>
    intro buffer s hw hlen
    obtain ⟨h1, h2⟩ := hw c (by simp)
    simp only [List.length_cons] at hlen
    obtain ⟨line, col, e⟩ := ih (buffer ++ [c])
      (if c = 10 then { s with line := s.line + 1, col := 1 } else { s with col := s.col + 1 })
      (fun b hb => hw b (List.mem_cons_of_mem _ hb))
      (by simp only [List.length_append, List.length_singleton]; omega)
    refine ⟨line, col, ?_⟩
    refine (process_string_loop_plain sl sc c (w ++ rest) buffer s h1 h2
      (by simp only [List.length_append, List.length_singleton]; omega)).trans (e.trans ?_)
    simp only [List.append_assoc, List.singleton_append]
    split <;> rfl

/-- A literal with at most 1020 plain payload bytes and a closing quote. -/
theorem process_string_short (payload rest : List Nat) (s : Lexer)
    (hp : ∀ b ∈ payload, b ≠ 34 ∧ b ≠ 92) (hlen : payload.length ≤ 1020) :
    ∃ line col, process_string (payload ++ 34 :: rest) s =
      (rest, { s with
        line := line
        col := col
        tokens := s.tokens ++ [{ type := TOKEN_STRING, value := cstr ([34] ++ payload ++ [34]),
                                 lexeme := cstr ([34] ++ payload ++ [34]) }] }) := by
  obtain ⟨line, col, e⟩ := process_string_loop_plain_run s.line s.col (34 :: rest) payload [34]
    { s with col := s.col + 1 } hp (by simp [MAX_STR_LEN]; omega)
  refine ⟨line, col + 1, ?_⟩
  unfold process_string
  rw [e, process_string_loop_quote]

/-- A literal whose first 1021 payload bytes are plain: it is cut after them. -/
theorem process_string_long (payload rest : List Nat) (s : Lexer)
    (hp : ∀ b ∈ payload, b ≠ 34 ∧ b ≠ 92) (hlen : payload.length = 1021) :
    ∃ line col, process_string (payload ++ rest) s =
      (rest, { s with
        line := line
        col := col
        tokens := s.tokens ++ [{ type := TOKEN_STRING, value := cstr ([34] ++ payload),
                                 lexeme := cstr ([34] ++ payload) }]
        errors := s.errors ++ [.StringTooLong s.line s.col] }) := by
  obtain ⟨w, c, rfl⟩ : ∃ w c, payload = w ++ [c] := by
    rcases List.eq_nil_or_concat payload with h | ⟨w, c, h⟩
    · rw [h] at hlen
      simp at hlen
    · exact ⟨w, c, by simpa using h⟩
  simp only [List.length_append, List.length_singleton] at hlen
  obtain ⟨h1, h2⟩ := hp c (by simp)
  obtain ⟨line, col, e⟩ := process_string_loop_plain_run s.line s.col (c :: rest) w [34]
    { s with col := s.col + 1 } (fun b hb => hp b (List.mem_append_left _ hb))
    (by simp [MAX_STR_LEN]; omega)
  refine ⟨if c = 10 then line + 1 else line, if c = 10 then 1 else col + 1, ?_⟩
  unfold process_string
  rw [List.append_assoc, List.singleton_append, e,
    process_string_loop_full _ _ c rest _ _ h1 h2 (by simp [MAX_STR_LEN]; omega)]
  simp only [List.append_assoc]

/-- C13 (counterexample): the literal whose payload is 1021 letters `a` followed
by a closing quote is not emitted well-formed: `process_string` reports
`String too long`, emits the opening quote and the 1021 letters without a closing
quote, and leaves the closing quote in the stream. -/
theorem string_1021_plain_bytes_cut :
    (∀ b ∈ List.replicate 1021 97, b ≠ 34 ∧ b ≠ 92) ∧
    (process_string (List.replicate 1021 97 ++ [34]) Lexer.init).1 = [34] ∧
    (process_string (List.replicate 1021 97 ++ [34]) Lexer.init).2.tokens =
      [{ type := TOKEN_STRING, value := [34] ++ List.replicate 1021 97,
         lexeme := [34] ++ List.replicate 1021 97 }] ∧
    (process_string (List.replicate 1021 97 ++ [34]) Lexer.init).2.errors =
      [.StringTooLong 1 1] := by
  have hp : ∀ b ∈ List.replicate 1021 97, b ≠ 34 ∧ b ≠ 92 := by
    intro b hb
    rw [(List.mem_replicate.1 hb).2]
    decide
  have hz : cstr ([34] ++ List.replicate 1021 97) = [34] ++ List.replicate 1021 97 := by
    apply cstr_eq_self
    intro b hb
    rcases List.mem_append.1 hb with h | h
    · rw [List.mem_singleton.1 h]
      decide
    · rw [(List.mem_replicate.1 h).2]
      decide
  obtain ⟨line, col, e⟩ := process_string_long (List.replicate 1021 97) [34] Lexer.init hp
    (List.length_replicate _ _)
  rw [e, hz]
  exact ⟨hp, rfl, rfl, rfl⟩

/-- C13 (amended): the cut-off happens when the buffer, opening quote included,
reaches `MAX_STR_LEN - 2 = 1022` bytes, that is at a payload of 1021 bytes.  A
literal whose payload is at most 1020 plain bytes (neither quote nor backslash)
followed by a closing quote yields exactly one String token, the C string of
quote ++ payload ++ quote, and no diagnostic; a literal whose first 1021 payload
bytes are plain is cut right after them: `String too long` is reported at the
position of the opening quote and the token is the C string of quote ++ these
1021 bytes, without a closing quote. -/
theorem string_length_limit (payload rest : List Nat) (s : Lexer)
    (hp : ∀ b ∈ payload, b ≠ 34 ∧ b ≠ 92) :
    (payload.length ≤ 1020 →
      ∃ line col, process_string (payload ++ 34 :: rest) s =
        (rest, { s with
          line := line
          col := col
          tokens := s.tokens ++ [{ type := TOKEN_STRING,
                                   value := cstr ([34] ++ payload ++ [34]),
                                   lexeme := cstr ([34] ++ payload ++ [34]) }] })) ∧
    (payload.length = 1021 →
      ∃ line col, process_string (payload ++ rest) s =
        (rest, { s with
          line := line
          col := col
          tokens := s.tokens ++ [{ type := TOKEN_STRING, value := cstr ([34] ++ payload),
                                   lexeme := cstr ([34] ++ payload) }]
          errors := s.errors ++ [.StringTooLong s.line s.col] })) :=
  ⟨process_string_short payload rest s hp, process_string_long payload rest s hp⟩

/-- C13 at the literal `"abc"`. -/
theorem string_length_limit_witness :
    (∀ b ∈ bytes "abc", b ≠ 34 ∧ b ≠ 92) ∧
    cstr ([34] ++ bytes "abc" ++ [34]) = bytes "\"abc\"" ∧
    ∃ line col, process_string (bytes "abc" ++ 34 :: []) Lexer.init =
      ([], { Lexer.init with
        line := line
        col := col
        tokens := Lexer.init.tokens ++
          [{ type := TOKEN_STRING, value := cstr ([34] ++ bytes "abc" ++ [34]),
             lexeme := cstr ([34] ++ bytes "abc" ++ [34]) }] }) :=
  ⟨by decide, by decide,
    (string_length_limit (bytes "abc") [] Lexer.init (by decide)).1 (by decide)⟩

/-! ## Positions reported for invalid characters -/

/-- C14 (evaluation of the code): on the input `a@` the invalid character `@` is
the second byte of line 1, so its column is 2; the scanner reports it at column
1, because the identifier branch does not advance `col` for the first byte of
the identifier. -/
theorem column_after_identifier :
    scan (bytes "a@") =
      some { Lexer.init with
        col := 2
        symbol_table := [{ name := bytes "a", code := 100 }]
        next_code := 101
        tokens := [{ type := TOKEN_ID, value := bytes "100", lexeme := bytes "a" }]
        errors := [.InvalidCharacter 64 1 1] } ∧
    bytes "a@" = bytes "a" ++ [64] ∧ column_of (bytes "a") = 2 := by
  decide

/-- C15 (evaluation of the code): in the input quote, backslash, newline, quote,
`@` the invalid character `@` comes after one newline, so its line is 2; the
scanner reports it at line 1, because a newline read as the second byte of an
escape inside a string literal does not advance `line`. -/
theorem line_after_escaped_newline :
    scan [34, 92, 10, 34, 64] =
      some { Lexer.init with
        col := 5
        tokens := [{ type := TOKEN_STRING, value := [34, 92, 10, 34], lexeme := [34, 92, 10, 34] }]
        errors := [.InvalidCharacter 64 1 4] } ∧
    [34, 92, 10, 34, 64] = [34, 92, 10, 34] ++ [64] ∧ line_of [34, 92, 10, 34] = 2 := by
  decide

/-! ## Termination -/

/-- More fuel does not change the result of the main loop. -/
theorem scan_loop_fuel_mono (fuel : Nat) :
    ∀ (src : List Nat) (s r : Lexer) (k : Nat), scan_loop fuel src s = some r →
      scan_loop (fuel + k) src s = some r := by
  induction fuel with
  | zero =>
    intro src s r k h
    cases src with
    | nil =>
      rw [scan_loop_nil] at h
      rw [scan_loop_nil, h]
    | cons c rest => simp [scan_loop] at h
  | succ fuel ih =>
    intro src s r k h
    cases src with
    | nil =>
      rw [scan_loop_nil] at h
      rw [scan_loop_nil, h]
    | cons c rest =>
      rw [scan_loop_succ] at h
      rw [show fuel + 1 + k = (fuel + k) + 1 by omega, scan_loop_succ]
      exact ih _ _ _ k h

/-- C16: for every input `scan` terminates with a final state, the length of the
input being enough fuel and more fuel giving the same state; every iteration of
the main loop, whatever it meets, hands back a suffix of the bytes after the one
it was given, so it reads at least one byte and loses none of the others; and as
long as a byte is left the loop does not return but runs its body on that byte:
it returns only at the end of the input. -/
theorem scan_terminates :
    (∀ src : List Nat, ∃ s, scan src = some s) ∧
    (∀ (src : List Nat) (fuel : Nat), src.length ≤ fuel →
      scan_loop fuel src Lexer.init = scan src) ∧
    (∀ (c : Nat) (rest : List Nat) (s : Lexer), (scan_step c rest s).1 <:+ rest) ∧
    (∀ (fuel c : Nat) (rest : List Nat) (s s' : Lexer),
      scan_loop fuel (c :: rest) s = some s' →
        ∃ fuel', fuel = fuel' + 1 ∧
          scan_loop fuel' (scan_step c rest s).1 (scan_step c rest s).2 = some s') := by
  refine ⟨fun src => scan_loop_isSome _ src _ (le_refl _), ?_,
    fun c rest s => (scan_step_frame c rest s).1, ?_⟩
  · intro src fuel hf
    obtain ⟨r, hr⟩ := scan_loop_isSome src.length src Lexer.init (le_refl _)
    obtain ⟨k, hk⟩ := Nat.exists_eq_add_of_le hf
    unfold scan
    rw [hk, hr]
    exact scan_loop_fuel_mono _ _ _ _ k hr
  · intro fuel c rest s s' h
    cases fuel with
    | zero => simp [scan_loop] at h
    | succ fuel => exact ⟨fuel, rfl, h⟩

/-- C16 on a malformed input: an invalid character, then a string literal that is
never closed; the scan still reads everything and returns. -/
theorem scan_terminates_witness :
    (∃ s, scan (bytes "@ \"abc") = some s) ∧
    tokens_of (scan (bytes "@ \"abc")) =
      [{ type := TOKEN_STRING, value := bytes "\"abc", lexeme := bytes "\"abc" }] :=
  ⟨scan_terminates.1 (bytes "@ \"abc"), by decide⟩

/-! ## The scan does not depend on the position or on what was written before -/

theorem similar_congr {preT : List Token} {preE : List Diagnostic} {a a' s s' : Lexer}
    (h : similar preT preE a a')
    (e1 : s.symbol_table = a.symbol_table) (e2 : s.next_code = a.next_code)
    (e3 : s.tokens = a.tokens) (e4 : s.errors = a.errors)
    (e1' : s'.symbol_table = a'.symbol_table) (e2' : s'.next_code = a'.next_code)
    (e3' : s'.tokens = a'.tokens) (e4' : s'.errors = a'.errors) :
    similar preT preE s s' := by
  unfold similar at h ⊢
  rw [e1, e2, e3, e4, e1', e2', e3', e4']
  exact h

theorem similar_emit {preT : List Token} {preE : List Diagnostic} {s s' : Lexer}
    (h : similar preT preE s s') (type : TokenType) (value lexeme : List Nat) :
    similar preT preE (emit_token type value lexeme s) (emit_token type value lexeme s') := by
  obtain ⟨h1, h2, h3, h4⟩ := h
  refine ⟨h1, h2, ?_, h4⟩
  simp only [emit_token, h3, List.append_assoc]

theorem similar_report {preT : List Token} {preE : List Diagnostic} {s s' : Lexer}
    (h : similar preT preE s s') (d d' : Diagnostic) (hd : d.unplaced = d'.unplaced) :
    similar preT preE (report d s) (report d' s') := by
  obtain ⟨h1, h2, h3, h4⟩ := h
  refine ⟨h1, h2, h3, ?_⟩
  simp only [report, List.map_append, List.map_cons, List.map_nil, h4, hd, List.append_assoc]

theorem similar_position {preT : List Token} {preE : List Diagnostic} {s s' : Lexer}
    (h : similar preT preE s s') (line col line' col' : Nat) :
    similar preT preE { s with line := line, col := col } { s' with line := line', col := col' } :=
  similar_congr h rfl rfl rfl rfl rfl rfl rfl rfl

theorem similar_plain {preT : List Token} {preE : List Diagnostic} {s s' : Lexer}
    (h : similar preT preE s s') (c : Nat) :
    similar preT preE
      (if c = 10 then { s with line := s.line + 1, col := 1 } else { s with col := s.col + 1 })
      (if c = 10 then { s' with line := s'.line + 1, col := 1 } else { s' with col := s'.col + 1 }) := by
  split
  · exact similar_position h _ _ _ _
  · exact similar_position h _ _ _ _

/-- The loop of `process_string` run from two similar states, with any start
positions: the same stream is left and the final states are similar. -/
theorem process_string_loop_similar (preT : List Token) (preE : List Diagnostic)
    (sl sc sl' sc' : Nat) (src buffer : List Nat) (s : Lexer) :
    ∀ s' : Lexer, similar preT preE s s' →
      (process_string_loop sl sc src buffer s).1 = (process_string_loop sl' sc' src buffer s').1 ∧
      similar preT preE (process_string_loop sl sc src buffer s).2
        (process_string_loop sl' sc' src buffer s').2 := by
  induction src, buffer, s using process_string_loop.induct sl sc with
  | case1 buffer s =>
    intro s' h
    rw [process_string_loop.eq_def sl sc, process_string_loop.eq_def sl' sc']
    exact ⟨rfl, similar_emit (similar_report h (.UnterminatedString sl sc)
      (.UnterminatedString sl' sc') rfl) _ _ _⟩
  | case2 rest buffer s =>
    intro s' h
    rw [process_string_loop.eq_def sl sc, process_string_loop.eq_def sl' sc']
    exact ⟨rfl, similar_congr (similar_emit h TOKEN_STRING (buffer ++ [34]) (buffer ++ [34]))
      rfl rfl rfl rfl rfl rfl rfl rfl⟩
  | case3 buffer s buffer1 h1 h2 =>
    intro s' h
    rw [process_string_loop.eq_def sl sc, process_string_loop.eq_def sl' sc']
    simp only [h2, if_false, if_true]
    rw [if_pos h1, if_pos h1]
    exact ⟨rfl, similar_emit (similar_report (similar_position h _ _ _ _)
      (.StringTooLong sl sc) (.StringTooLong sl' sc') rfl) _ _ _⟩
  | case4 buffer s buffer1 h1 h2 =>
    intro s' h
    rw [process_string_loop.eq_def sl sc, process_string_loop.eq_def sl' sc']
    simp only [h2, if_false, if_true]
    rw [if_neg h1, if_neg h1]
    exact ⟨rfl, similar_emit (similar_report (similar_position h _ _ _ _)
      (.UnterminatedString sl sc) (.UnterminatedString sl' sc') rfl) _ _ _⟩
  | case5 buffer s esc rest1 buffer1 h1 h2 =>
    intro s' h
    rw [process_string_loop.eq_def sl sc, process_string_loop.eq_def sl' sc']
    simp only [h2, if_false, if_true]
    rw [if_pos h1, if_pos h1]
    exact ⟨rfl, similar_emit (similar_report (similar_position h _ _ _ _)
      (.StringTooLong sl sc) (.StringTooLong sl' sc') rfl) _ _ _⟩
  | case6 buffer s esc rest1 buffer1 s1 h1 h2 ih =>
    intro s' h
    rw [process_string_loop.eq_def sl sc, process_string_loop.eq_def sl' sc']
    simp only [h2, if_false, if_true]
    rw [if_neg h1, if_neg h1]
    exact ih _ (similar_position h _ _ _ _)
  | case7 c rest buffer s h1 h2 buffer1 h3 =>
    intro s' h
    rw [process_string_loop.eq_def sl sc, process_string_loop.eq_def sl' sc']
    simp only [h1, h2, if_false]
    rw [if_pos h3, if_pos h3]
    exact ⟨rfl, similar_emit (similar_report (similar_plain h c)
      (.StringTooLong sl sc) (.StringTooLong sl' sc') rfl) _ _ _⟩
  | case8 c rest buffer s h1 h2 buffer1 s1 h3 ih =>
    intro s' h
    rw [process_string_loop.eq_def sl sc, process_string_loop.eq_def sl' sc']
    simp only [h1, h2, if_false]
    rw [if_neg h3, if_neg h3]
    exact ih _ (similar_plain h c)

theorem skip_block_comment_similar (preT : List Token) (preE : List Diagnostic)
    (sl sc sl' sc' : Nat) (src : List Nat) (s : Lexer) :
    ∀ s' : Lexer, similar preT preE s s' →
      (skip_block_comment sl sc src s).1 = (skip_block_comment sl' sc' src s').1 ∧
      similar preT preE (skip_block_comment sl sc src s).2 (skip_block_comment sl' sc' src s').2 := by
  induction src, s using skip_block_comment.induct sl sc with
  | case1 s =>
    intro s' h
    exact ⟨rfl, similar_report h (.UnterminatedBlockComment sl sc)
      (.UnterminatedBlockComment sl' sc') rfl⟩
  | case2 rest s s1 ih =>
    intro s' h
    rw [skip_block_comment_newline, skip_block_comment_newline]
    exact ih _ (similar_position h _ _ _ _)
  | case3 s rest1 _ =>
    intro s' h
    rw [skip_block_comment_close, skip_block_comment_close]
    exact ⟨rfl, similar_position h _ _ _ _⟩
  | case4 rest s s1 hne _ ih =>
    intro s' h
    have hh : ∀ b ∈ rest.head?, b ≠ 47 := by
      intro b hb e
      subst e
      cases rest with
      | nil => simp at hb
      | cons b' rest' =>
        simp at hb
        exact hne rest' (by rw [hb])
    rw [skip_block_comment_star sl sc rest s hh, skip_block_comment_star sl' sc' rest s' hh]
    exact ih _ (similar_position h _ _ _ _)
  | case5 c rest s s1 h1 h2 ih =>
    intro s' h
    rw [skip_block_comment_other sl sc c rest s h1 h2,
      skip_block_comment_other sl' sc' c rest s' h1 h2]
    exact ih _ (similar_position h _ _ _ _)

theorem similar_push {preT : List Token} {preE : List Diagnostic} {s s' : Lexer}
    (h : similar preT preE s s') (t : Token) {a a' : Lexer}
    (e1 : a.symbol_table = s.symbol_table) (e2 : a.next_code = s.next_code)
    (e3 : a.tokens = s.tokens ++ [t]) (e4 : a.errors = s.errors)
    (e1' : a'.symbol_table = s'.symbol_table) (e2' : a'.next_code = s'.next_code)
    (e3' : a'.tokens = s'.tokens ++ [t]) (e4' : a'.errors = s'.errors) :
    similar preT preE a a' := by
  obtain ⟨h1, h2, h3, h4⟩ := h
  unfold similar
  rw [e1, e2, e3, e4, e1', e2', e3', e4', h3, List.append_assoc]
  exact ⟨h1, h2, rfl, h4⟩

theorem skip_line_comment_similar (preT : List Token) (preE : List Diagnostic)
    (src : List Nat) :
    ∀ s s' : Lexer, similar preT preE s s' →
      (skip_line_comment src s).1 = (skip_line_comment src s').1 ∧
      similar preT preE (skip_line_comment src s).2 (skip_line_comment src s').2 := by
  induction src with
  | nil =>
    intro s s' h
    exact ⟨rfl, h⟩
  | cons c rest ih =>
    intro s s' h
    unfold skip_line_comment
    by_cases hc : c = 10
    · rw [if_pos hc, if_pos hc]
      exact ⟨rfl, similar_position h _ _ _ _⟩
    · rw [if_neg hc, if_neg hc]
      exact ih _ _ (similar_position h _ _ _ _)

/-- One iteration of the main loop run from two similar states leaves the same
stream and similar states. -/
theorem scan_step_similar (preT : List Token) (preE : List Diagnostic) (c : Nat)
    (rest : List Nat) (s s' : Lexer) (h : similar preT preE s s') :
    (scan_step c rest s).1 = (scan_step c rest s').1 ∧
    similar preT preE (scan_step c rest s).2 (scan_step c rest s').2 := by
  by_cases hs : isspace c = true
  · rw [scan_step_space c rest s hs, scan_step_space c rest s' hs]
    refine ⟨rfl, ?_⟩
    split
    · exact similar_position h _ _ _ _
    · exact similar_position h _ _ _ _
  by_cases h34 : c = 34
  · subst h34
    rw [scan_step_quote, scan_step_quote]
    exact process_string_loop_similar preT preE _ _ _ _ rest [34] _ _ (similar_position h _ _ _ _)
  by_cases h47 : c = 47
  · subst h47
    have hslash : ∀ r : List Nat, (∀ b ∈ r.head?, b ≠ 47 ∧ b ≠ 42) →
        (scan_step 47 r s).1 = (scan_step 47 r s').1 ∧
        similar preT preE (scan_step 47 r s).2 (scan_step 47 r s').2 := by
      intro r hr
      rw [scan_step_slash r s hr, scan_step_slash r s' hr]
      exact ⟨rfl, similar_congr (similar_emit h TOKEN_OPERATOR [47] [47])
        rfl rfl rfl rfl rfl rfl rfl rfl⟩
    cases rest with
    | nil => exact hslash [] (by simp)
    | cons b rest =>
      by_cases hb1 : b = 47
      · subst hb1
        rw [scan_step_line_comment, scan_step_line_comment]
        exact skip_line_comment_similar preT preE rest _ _ (similar_position h _ _ _ _)
      by_cases hb2 : b = 42
      · subst hb2
        rw [scan_step_block_comment, scan_step_block_comment]
        exact skip_block_comment_similar preT preE _ _ _ _ rest _ _ (similar_position h _ _ _ _)
      exact hslash (b :: rest) (by intro b' hb'; simp at hb'; subst hb'; exact ⟨hb1, hb2⟩)
  by_cases hop : is_operator_start c = true
  · by_cases hm : is_multi_char_operator c rest.head? = true
    · cases rest with
      | nil => simp [is_multi_char_operator] at hm
      | cons next rest =>
        rw [scan_step_operator_pair c next rest s h47 hop hm,
          scan_step_operator_pair c next rest s' h47 hop hm]
        exact ⟨rfl, similar_push h _ rfl rfl rfl rfl rfl rfl rfl rfl⟩
    · rw [scan_step_operator_single c rest s h47 hop (by simpa using hm),
        scan_step_operator_single c rest s' h47 hop (by simpa using hm)]
      exact ⟨rfl, similar_congr (similar_emit h TOKEN_OPERATOR [c] [c])
        rfl rfl rfl rfl rfl rfl rfl rfl⟩
  have hop' : is_operator_start c = false := by simpa using hop
  by_cases hd : is_delimiter c = true
  · rw [scan_step_delimiter c rest s h34 hop' hd, scan_step_delimiter c rest s' h34 hop' hd]
    exact ⟨rfl, similar_push h _ rfl rfl rfl rfl rfl rfl rfl rfl⟩
  by_cases ha : isalpha c = true ∨ c = 95
  · obtain ⟨w, rest', e, hw, hmax⟩ := maximal_run_split ident_char rest
    rw [e, scan_step_ident c w rest' s ha hw hmax, scan_step_ident c w rest' s' ha hw hmax]
    by_cases hk : (c :: w).take (MAX_IDENT_LEN - 1) ∈ keywords
    · rw [if_pos hk, if_pos hk]
      exact ⟨rfl, similar_emit (similar_position h _ _ _ _) _ _ _⟩
    · rw [if_neg hk, if_neg hk]
      obtain ⟨h1, h2, h3, h4⟩ := h
      obtain ⟨g1, g2, g3⟩ := get_id_code_same_fields ((c :: w).take (MAX_IDENT_LEN - 1))
        { s' with col := s'.col + w.length } { s with col := s.col + w.length } h1 h2
      refine ⟨rfl, ?_⟩
      rw [g1]
      refine similar_emit ⟨g2, g3, ?_, ?_⟩ _ _ _
      · rw [get_id_code_tokens, get_id_code_tokens]
        exact h3
      · rw [(get_id_code_frame _ _).2.1, (get_id_code_frame _ _).2.1]
        exact h4
  by_cases hdig : isdigit c = true
  · obtain ⟨d, rest', e, hd', hmax⟩ := maximal_run_split isdigit rest
    rw [e, scan_step_digits c d rest' s hdig hd' hmax, scan_step_digits c d rest' s' hdig hd' hmax]
    exact ⟨rfl, similar_emit (similar_position h _ _ _ _) _ _ _⟩
  have e := scan_step_invalid c rest s (by simpa using hs) h34 hop' (by simpa using hd)
    (by simpa using fun h => ha (Or.inl h)) (fun h => ha (Or.inr h)) (by simpa using hdig)
  have e' := scan_step_invalid c rest s' (by simpa using hs) h34 hop' (by simpa using hd)
    (by simpa using fun h => ha (Or.inl h)) (fun h => ha (Or.inr h)) (by simpa using hdig)
  rw [e, e']
  exact ⟨rfl, similar_congr (similar_report h (.InvalidCharacter c s.line s.col)
    (.InvalidCharacter c s'.line s'.col) rfl) rfl rfl rfl rfl rfl rfl rfl rfl⟩

/-- The whole loop run from two similar states: if one run finishes, so does the
other, in a similar state. -/
theorem scan_loop_similar (preT : List Token) (preE : List Diagnostic) (fuel : Nat) :
    ∀ (src : List Nat) (s s' r : Lexer), similar preT preE s s' →
      scan_loop fuel src s = some r →
      ∃ r', scan_loop fuel src s' = some r' ∧ similar preT preE r r' := by
  induction fuel with
  | zero =>
    intro src s s' r h hr
    cases src with
    | nil =>
      rw [scan_loop_nil] at hr
      exact ⟨s', scan_loop_nil _ _, (Option.some.inj hr) ▸ h⟩
    | cons c rest => simp [scan_loop] at hr
  | succ fuel ih =>
    intro src s s' r h hr
    cases src with
    | nil =>
      rw [scan_loop_nil] at hr
      exact ⟨s', scan_loop_nil _ _, (Option.some.inj hr) ▸ h⟩
    | cons c rest =>
      rw [scan_loop_succ] at hr ⊢
      obtain ⟨e, hsim⟩ := scan_step_similar preT preE c rest s s' h
      rw [← e]
      exact ih _ _ _ r hsim hr

/-! ## Single-character operators and the end of block comments -/

/-- C17: let `c` be one of `+ - ! * % ^ < > = | &` and `r` the input after it,
`c` and the first byte of `r` not forming `==` or `++` (`r` may be empty).  Then
in every state the iteration on `c` emits the one-byte Operator token `c` and
leaves exactly `r` in the stream, so the lookahead byte is dispatched again; and
the tokens of scanning `c` followed by `r` are that token followed by the tokens
of scanning `r`. -/
theorem single_character_operator (c : Nat) (r : List Nat)
    (hc : c ∈ [43, 45, 33, 42, 37, 94, 60, 62, 61, 124, 38])
    (hpair : ¬ (c = 61 ∧ r.head? = some 61) ∧ ¬ (c = 43 ∧ r.head? = some 43)) :
    (∀ s : Lexer, scan_step c r s =
      (r, { s with
        col := s.col + 1
        tokens := s.tokens ++ [{ type := TOKEN_OPERATOR, value := [c], lexeme := [c] }] })) ∧
    (∃ s, scan (c :: r) = some s) ∧
    tokens_of (scan (c :: r)) =
      { type := TOKEN_OPERATOR, value := [c], lexeme := [c] } :: tokens_of (scan r) := by
  have hc' : c = 43 ∨ c = 45 ∨ c = 33 ∨ c = 42 ∨ c = 37 ∨ c = 94 ∨ c = 60 ∨ c = 62 ∨ c = 61 ∨
      c = 124 ∨ c = 38 := by simpa using hc
  have hop : is_operator_start c = true := (is_operator_start_iff c).2 (by omega)
  have h47 : c ≠ 47 := by omega
  have hm : is_multi_char_operator c r.head? = false := by
    have h58 : c ≠ 58 := by omega
    obtain ⟨p1, p2⟩ := hpair
    unfold is_multi_char_operator
    by_cases e1 : c = 61
    · have : r.head? ≠ some 61 := fun e => p1 ⟨e1, e⟩
      simp [e1, this]
    · by_cases e2 : c = 43
      · have : r.head? ≠ some 43 := fun e => p2 ⟨e2, e⟩
        simp [e2, this]
      · simp [e1, e2, h58]
  have hz : cstr [c] = [c] := cstr_eq_self (by intro b hb; simp at hb; omega)
  have hstep : ∀ s : Lexer, scan_step c r s =
      (r, { s with
        col := s.col + 1
        tokens := s.tokens ++ [{ type := TOKEN_OPERATOR, value := [c], lexeme := [c] }] }) := by
    intro s
    rw [scan_step_operator_single c r s h47 hop hm, hz]
  obtain ⟨r1, hr1⟩ := scan_loop_isSome (r.length + 1) (c :: r) Lexer.init (by simp)
  have hr1' := hr1
  rw [scan_loop_succ, hstep] at hr1'
  obtain ⟨r0, hr0, _, _, ht, _⟩ := scan_loop_similar
    [{ type := TOKEN_OPERATOR, value := [c], lexeme := [c] }] [] r.length r
    { Lexer.init with
      col := Lexer.init.col + 1
      tokens := Lexer.init.tokens ++ [{ type := TOKEN_OPERATOR, value := [c], lexeme := [c] }] }
    Lexer.init r1 ⟨rfl, rfl, rfl, rfl⟩ hr1'
  have e1 : scan (c :: r) = some r1 := hr1
  have e0 : scan r = some r0 := hr0
  refine ⟨hstep, ⟨r1, e1⟩, ?_⟩
  rw [e1, e0]
  exact ht

/-- C17 at the input `<=`: the Operator `<`, then the tokens of scanning `=`. -/
theorem single_character_operator_witness :
    (60 : Nat) ∈ [43, 45, 33, 42, 37, 94, 60, 62, 61, 124, 38] ∧
    tokens_of (scan (60 :: bytes "=")) =
      { type := TOKEN_OPERATOR, value := [60], lexeme := [60] } :: tokens_of (scan (bytes "=")) ∧
    tokens_of (scan (bytes "=")) =
      [{ type := TOKEN_OPERATOR, value := bytes "=", lexeme := bytes "=" }] :=
  ⟨by decide, (single_character_operator 60 (bytes "=") (by decide) (by decide)).2.2, by decide⟩

/-- Every text that contains `*/` splits at its first occurrence: a part `body`
without `*/`, then `*/`, then what follows. -/
theorem first_close_split (t : List Nat) (h : [42, 47] <:+: t) :
    ∃ body rest, t = body ++ 42 :: 47 :: rest ∧ no_close body := by
  induction t with
  | nil =>
    have := List.eq_nil_of_infix_nil h
    simp at this
  | cons a t ih =>
    by_cases hp : [42, 47] <+: a :: t
    · obtain ⟨rest, hr⟩ := hp
      exact ⟨[], rest, by simpa using hr.symm, by decide⟩
    · rcases List.infix_cons_iff.1 h with h' | h'
      · exact absurd h' hp
      · obtain ⟨body, rest, e, hb⟩ := ih h'
        refine ⟨a :: body, rest, by rw [e]; rfl, ?_⟩
        intro hi
        rcases List.infix_cons_iff.1 hi with h1 | h1
        · apply hp
          obtain ⟨u, hu⟩ := h1
          exact ⟨u ++ 42 :: 47 :: rest, by rw [e, ← List.cons_append, ← hu]; simp⟩
        · exact hb h1

/-- C18: let `body` be a text in which `*/` does not occur, followed by `*/` and by
`rest`, so that this `*/` is the first one after the opening `/*`.  Then in every
state the iteration on the opening `/` reads the comment up to and including that
`*/`, leaves exactly `rest` in the stream and changes only `line` and `col`: no
token and no diagnostic; and scanning `/*` ++ `body` ++ `*/` ++ `rest` gives the
tokens of scanning `rest`, and the diagnostics of scanning `rest` at other
positions, so none for this comment. -/
theorem block_comment_ends_at_first_close (body rest : List Nat) (h : no_close body) :
    (∀ s : Lexer, ∃ line col,
      scan_step 47 (42 :: (body ++ 42 :: 47 :: rest)) s =
        (rest, { s with line := line, col := col })) ∧
    (∃ s, scan (47 :: 42 :: (body ++ 42 :: 47 :: rest)) = some s) ∧
    tokens_of (scan (47 :: 42 :: (body ++ 42 :: 47 :: rest))) = tokens_of (scan rest) ∧
    (errors_of (scan (47 :: 42 :: (body ++ 42 :: 47 :: rest)))).map Diagnostic.unplaced =
      (errors_of (scan rest)).map Diagnostic.unplaced := by
  have hstep : ∀ s : Lexer, ∃ line col,
      scan_step 47 (42 :: (body ++ 42 :: 47 :: rest)) s =
        (rest, { s with line := line, col := col }) := by
    intro s
    obtain ⟨line, col, e⟩ :=
      skip_block_comment_closed s.line s.col body rest { s with col := s.col + 1 } h
    exact ⟨line, col, by rw [scan_step_block_comment, e]⟩
  obtain ⟨r1, hr1⟩ := scan_loop_isSome (47 :: 42 :: (body ++ 42 :: 47 :: rest)).length
    (47 :: 42 :: (body ++ 42 :: 47 :: rest)) Lexer.init (le_refl _)
  have hr1' := hr1
  obtain ⟨line, col, e⟩ := hstep Lexer.init
  rw [List.length_cons, scan_loop_succ, e] at hr1'
  obtain ⟨r0, hr0, _, _, ht, he⟩ := scan_loop_similar [] []
    (42 :: (body ++ 42 :: 47 :: rest)).length rest
    { Lexer.init with line := line, col := col } Lexer.init r1 ⟨rfl, rfl, rfl, rfl⟩ hr1'
  obtain ⟨r0', hr0'⟩ := scan_loop_isSome rest.length rest Lexer.init (le_refl _)
  have hk : (42 :: (body ++ 42 :: 47 :: rest)).length = rest.length + (body.length + 3) := by
    simp only [List.length_cons, List.length_append]
    omega
  have := scan_loop_fuel_mono _ _ _ _ (body.length + 3) hr0'
  rw [← hk, hr0] at this
  have e00 : r0 = r0' := Option.some.inj this
  have e1 : scan (47 :: 42 :: (body ++ 42 :: 47 :: rest)) = some r1 := hr1
  have e0 : scan rest = some r0 := e00 ▸ hr0'
  refine ⟨hstep, ⟨r1, e1⟩, ?_, ?_⟩
  · rw [e1, e0]
    simpa using ht
  · rw [e1, e0]
    simpa using he

/-- C18 at the input `/***/x`: the comment ends at the first `*/` and the tokens
are those of `x`. -/
theorem block_comment_ends_at_first_close_witness :
    no_close [42] ∧ bytes "/***/x" = 47 :: 42 :: ([42] ++ 42 :: 47 :: bytes "x") ∧
    tokens_of (scan (47 :: 42 :: ([42] ++ 42 :: 47 :: bytes "x"))) = tokens_of (scan (bytes "x")) ∧
    tokens_of (scan (bytes "x")) =
      [{ type := TOKEN_ID, value := bytes "100", lexeme := bytes "x" }] :=
  ⟨by decide, by decide,
    (block_comment_ends_at_first_close [42] (bytes "x") (by decide)).2.2.1, by decide⟩

/-! ## Buffer bounds -/

/-- From a buffer shorter than `MAX_STR_LEN - 2`, every index written by the loop
of `process_string` is below `MAX_STR_LEN`. -/
theorem process_string_writes_bound (src buffer : List Nat) :
    buffer.length < MAX_STR_LEN - 2 →
      ∀ i ∈ process_string_writes src buffer, i < MAX_STR_LEN := by
  induction src, buffer using process_string_writes.induct with
  | case1 buffer =>
    intro hb i hi
    rw [process_string_writes.eq_def] at hi
    simp only [List.mem_singleton] at hi
    simp only [MAX_STR_LEN] at hb ⊢
    omega
  | case2 rest buffer =>
    intro hb i hi
    rw [process_string_writes.eq_def] at hi
    simp only [if_true, List.length_append, List.length_singleton, List.mem_cons,
      List.mem_singleton, List.not_mem_nil, or_false] at hi
    simp only [MAX_STR_LEN] at hb ⊢
    omega
  | case3 buffer _ =>
    intro hb i hi
    rw [process_string_writes.eq_def] at hi
    simp at hi
    simp only [MAX_STR_LEN] at hb ⊢
    omega
  | case4 buffer esc rest1 buffer1 h1 _ =>
    intro hb i hi
    have hlen : buffer1.length ≤ buffer.length + 2 := by
      simp only [buffer1]
      split_ifs <;> simp
    have hw : ∀ j ∈ (if esc = 110 ∨ esc = 116 ∨ esc = 34 ∨ esc = 92 then [buffer.length]
        else [buffer.length, buffer.length + 1]), j ≤ buffer.length + 1 := by
      intro j hj
      split_ifs at hj <;> simp at hj <;> omega
    rw [process_string_writes.eq_def] at hi
    simp only [show (92 : Nat) ≠ 34 by decide, if_false, if_true] at hi
    rw [if_pos h1] at hi
    simp only [MAX_STR_LEN] at hb ⊢
    rcases List.mem_append.1 hi with h | h
    · have := hw i h
      omega
    · have h' : i = buffer1.length := List.mem_singleton.1 h
      omega
  | case5 buffer esc rest1 buffer1 h1 _ ih =>
    intro hb i hi
    have hw : ∀ j ∈ (if esc = 110 ∨ esc = 116 ∨ esc = 34 ∨ esc = 92 then [buffer.length]
        else [buffer.length, buffer.length + 1]), j ≤ buffer.length + 1 := by
      intro j hj
      split_ifs at hj <;> simp at hj <;> omega
    rw [process_string_writes.eq_def] at hi
    simp only [show (92 : Nat) ≠ 34 by decide, if_false, if_true] at hi
    rw [if_neg h1] at hi
    rcases List.mem_append.1 hi with h | h
    · have := hw i h
      simp only [MAX_STR_LEN] at hb ⊢
      omega
    · exact ih (Nat.lt_of_not_le h1) i h
  | case6 c rest buffer h1 h2 buffer1 h3 =>
    intro hb i hi
    rw [process_string_writes.eq_def] at hi
    simp only [h1, h2, if_false] at hi
    rw [if_pos h3] at hi
    simp only [buffer1, List.length_append, List.length_singleton, List.mem_cons,
      List.mem_singleton, List.not_mem_nil, or_false] at hi
    simp only [MAX_STR_LEN] at hb ⊢
    omega
  | case7 c rest buffer h1 h2 buffer1 h3 ih =>
    intro hb i hi
    rw [process_string_writes.eq_def] at hi
    simp only [h1, h2, if_false] at hi
    rw [if_neg h3] at hi
    rcases List.mem_cons.1 hi with h | h
    · simp only [MAX_STR_LEN] at hb ⊢
      omega
    · exact ih (Nat.lt_of_not_le h3) i h

/-- From a buffer of at most `MAX_IDENT_LEN - 1` bytes, every index written by an
inner loop of `scan` is below `MAX_IDENT_LEN`. -/
theorem scan_run_writes_bound (p : Nat → Bool) (src : List Nat) :
    ∀ buf : List Nat, buf.length ≤ MAX_IDENT_LEN - 1 →
      ∀ i ∈ scan_run_writes p src buf, i < MAX_IDENT_LEN := by
  induction src with
  | nil =>
    intro buf hb i hi
    simp only [scan_run_writes, List.mem_singleton] at hi
    simp only [MAX_IDENT_LEN] at hb ⊢
    omega
  | cons c rest ih =>
    intro buf hb i hi
    unfold scan_run_writes at hi
    by_cases hp : p c = true
    · rw [if_pos hp] at hi
      by_cases hl : buf.length < MAX_IDENT_LEN - 1
      · rw [if_pos hl] at hi
        rcases List.mem_cons.1 hi with h | h
        · simp only [MAX_IDENT_LEN] at hl ⊢
          omega
        · exact ih (buf ++ [c]) (by simpa using hl) i h
      · rw [if_neg hl] at hi
        exact ih buf hb i hi
    · rw [if_neg hp] at hi
      simp only [List.mem_singleton] at hi
      simp only [MAX_IDENT_LEN] at hb ⊢
      omega

/-- C19: for every input, every index written into the buffer of `process_string`
(index 0 for the opening quote, then the writes of the loop: bytes, the second
byte of an unknown escape, the closing quote, the terminating NUL) is below
`MAX_STR_LEN = 1024`; and every index written into the identifier or number
buffer of `scan` (index 0 for the first byte, then the writes of the inner loop
and the terminating NUL) is below `MAX_IDENT_LEN = 256`. -/
theorem buffer_writes_in_bounds :
    (∀ src : List Nat, ∀ i ∈ 0 :: process_string_writes src [34], i < MAX_STR_LEN) ∧
    (∀ (p : Nat → Bool) (c : Nat) (src : List Nat),
      ∀ i ∈ 0 :: scan_run_writes p src [c], i < MAX_IDENT_LEN) := by
  constructor
  · intro src i hi
    rcases List.mem_cons.1 hi with h | h
    · rw [h]
      decide
    · exact process_string_writes_bound src [34] (by decide) i h
  · intro p c src i hi
    rcases List.mem_cons.1 hi with h | h
    · rw [h]
      decide
    · exact scan_run_writes_bound p src [c] (by simp [MAX_IDENT_LEN]) i h

/-- C19 on a string of 1021 letters after the opening quote, and on a run of 300
digits: the largest index written is 1022, respectively 255. -/
theorem buffer_writes_in_bounds_witness :
    (∀ i ∈ 0 :: process_string_writes (List.replicate 1021 97) [34], i < MAX_STR_LEN) ∧
    (∀ i ∈ 0 :: scan_run_writes isdigit (List.replicate 300 49) [49], i < MAX_IDENT_LEN) ∧
    (scan_run_writes isdigit (List.replicate 300 49) [49]).getLast? = some 255 :=
  ⟨buffer_writes_in_bounds.1 (List.replicate 1021 97),
    buffer_writes_in_bounds.2 isdigit 49 (List.replicate 300 49), by decide⟩

/-! ## The invariant of the symbol table -/

theorem lookup_eq_none_iff (tbl : List Symbol) (name : List Nat) :
    lookup tbl name = none ↔ name ∉ tbl.map Symbol.name := by
  induction tbl with
  | nil => simp [lookup]
  | cons sym tbl ih =>
    rw [lookup_cons]
    by_cases h : sym.name = name
    · simp [h]
    · rw [if_neg h, ih]
      simp [List.mem_cons, Ne.symm h]

/-- A call of `get_id_code` either leaves the table as it is or puts one new
entry in front of it. -/
theorem get_id_code_extends (name : List Nat) (s : Lexer) :
    ∃ added, (get_id_code name s).2.symbol_table = added ++ s.symbol_table ∧ added.length ≤ 1 := by
  unfold get_id_code
  cases lookup s.symbol_table name with
  | some code => exact ⟨[], rfl, by simp⟩
  | none => exact ⟨[{ name := name, code := s.next_code }], rfl, by simp⟩

/-- The invariant holds initially and is kept by every call. -/
theorem calls_invariant (names : List (List Nat)) :
    ((calls names Lexer.init).symbol_table.map Symbol.name).Nodup ∧
    ((calls names Lexer.init).symbol_table.map Symbol.code).reverse =
      List.range' 100 (calls names Lexer.init).symbol_table.length ∧
    (calls names Lexer.init).next_code = 100 + (calls names Lexer.init).symbol_table.length := by
  induction names using List.reverseRecOn with
  | nil => exact ⟨by simp [calls_nil, Lexer.init], rfl, rfl⟩
  | append_singleton names n ih =>
    obtain ⟨h1, h2, h3⟩ := ih
    rw [calls_append, calls_cons, calls_nil]
    unfold get_id_code
    cases hl : lookup (calls names Lexer.init).symbol_table n with
    | some code => exact ⟨h1, h2, h3⟩
    | none =>
      have hn := (lookup_eq_none_iff _ _).1 hl
      refine ⟨?_, ?_, ?_⟩
      · simpa using ⟨by simpa using hn, h1⟩
      · simp only [List.map_cons, List.reverse_cons, h2, h3, List.length_cons]
        rw [List.range'_concat]
        simp
      · simp only [List.length_cons, h3]
        omega

/-- C20: in every state reached from the initial state by calls of `get_id_code`,
the names stored in the table are pairwise distinct, the stored codes, read from
the oldest entry to the newest, are 100, 101, ... up to `next_code - 1`, each
once, `next_code` is 100 plus the number of entries, and a further call keeps
every existing entry in place: the new table is the old one with at most one
entry put in front. -/
theorem symbol_table_invariant (names : List (List Nat)) :
    ((calls names Lexer.init).symbol_table.map Symbol.name).Nodup ∧
    ((calls names Lexer.init).symbol_table.map Symbol.code).reverse =
      List.range' 100 ((calls names Lexer.init).next_code - 100) ∧
    (calls names Lexer.init).next_code = 100 + (calls names Lexer.init).symbol_table.length ∧
    (∀ name : List Nat, ∃ added,
      (get_id_code name (calls names Lexer.init)).2.symbol_table =
        added ++ (calls names Lexer.init).symbol_table ∧ added.length ≤ 1) := by
  obtain ⟨h1, h2, h3⟩ := calls_invariant names
  refine ⟨h1, ?_, h3, fun name => get_id_code_extends name _⟩
  rw [h2, h3]
  simp

/-- C20 after the calls `x`, `y`, `x`, `z`: three entries with the codes 100, 101,
102 and `next_code = 103`. -/
theorem symbol_table_invariant_witness :
    (calls [bytes "x", bytes "y", bytes "x", bytes "z"] Lexer.init).symbol_table =
      [{ name := bytes "z", code := 102 }, { name := bytes "y", code := 101 },
       { name := bytes "x", code := 100 }] ∧
    ((calls [bytes "x", bytes "y", bytes "x", bytes "z"] Lexer.init).symbol_table.map
      Symbol.code).reverse =
      List.range' 100 ((calls [bytes "x", bytes "y", bytes "x", bytes "z"] Lexer.init).next_code - 100) :=
  ⟨by decide, (symbol_table_invariant [bytes "x", bytes "y", bytes "x", bytes "z"]).2.1⟩

/-! ## The buffer of a string literal -/

theorem escape_buffer_eq (buffer : List Nat) (esc : Nat) :
    (if esc = 110 then buffer ++ [10]
      else if esc = 116 then buffer ++ [9]
      else if esc = 34 then buffer ++ [34]
      else if esc = 92 then buffer ++ [92]
      else buffer ++ [92, esc]) = buffer ++ (StrItem.escape esc).decode := by
  simp only [StrItem.decode]
  split_ifs <;> rfl

/-- Whatever the input, the text read by the loop of `process_string` is a body
of plain bytes and backslash pairs followed by an ending `tr`: the closing quote,
nothing (the literal was cut, or the input ended), or a lone backslash at the end
of the input; and the token emitted is the C string of the buffer extended by the
decoded body and by `td`: the closing quote, nothing, or backslash and the byte
255 (`EOF` stored as a `char`). -/
theorem process_string_loop_decoded (sl sc : Nat) (src buffer : List Nat) (s : Lexer) :
    ∃ items tr td, (∀ i ∈ items, i.valid) ∧
      ((tr = [34] ∧ td = [34]) ∨ (tr = [] ∧ td = []) ∨ (tr = [92] ∧ td = [92, 255])) ∧
      src = raw_body items ++ tr ++ (process_string_loop sl sc src buffer s).1 ∧
      (process_string_loop sl sc src buffer s).2.tokens =
        s.tokens ++ [{ type := TOKEN_STRING, value := cstr (buffer ++ decode items ++ td),
                       lexeme := cstr (buffer ++ decode items ++ td) }] := by
  induction src, buffer, s using process_string_loop.induct sl sc with
  | case1 buffer s =>
    rw [process_string_loop.eq_def]
    exact ⟨[], [], [], by simp, Or.inr (Or.inl ⟨rfl, rfl⟩), rfl, by simp [decode, emit_token, report]⟩
  | case2 rest buffer s =>
    rw [process_string_loop.eq_def]
    exact ⟨[], [34], [34], by simp, Or.inl ⟨rfl, rfl⟩, rfl, by simp [decode, emit_token]⟩
  | case3 buffer s buffer1 h1 h2 =>
    rw [process_string_loop.eq_def]
    simp only [h2, if_false, if_true]
    rw [if_pos h1]
    exact ⟨[], [92], [92, 255], by simp, Or.inr (Or.inr ⟨rfl, rfl⟩), rfl,
      by simp [decode, emit_token, report, buffer1]⟩
  | case4 buffer s buffer1 h1 h2 =>
    rw [process_string_loop.eq_def]
    simp only [h2, if_false, if_true]
    rw [if_neg h1]
    exact ⟨[], [92], [92, 255], by simp, Or.inr (Or.inr ⟨rfl, rfl⟩), rfl,
      by simp [decode, emit_token, report, buffer1]⟩
  | case5 buffer s esc rest1 buffer1 h1 h2 =>
    rw [process_string_loop.eq_def]
    simp only [h2, if_false, if_true]
    rw [if_pos h1]
    have hb : buffer1 = buffer ++ (StrItem.escape esc).decode := escape_buffer_eq buffer esc
    refine ⟨[StrItem.escape esc], [], [], ?_, Or.inr (Or.inl ⟨rfl, rfl⟩), ?_, ?_⟩
    · intro i hi
      rw [List.mem_singleton.1 hi]
      trivial
    · simp [raw_body, StrItem.raw]
    · simp only [emit_token, report, decode, List.append_nil]
      rw [← hb]
  | case6 buffer s esc rest1 buffer1 s1 h1 h2 ih =>
    rw [process_string_loop.eq_def]
    simp only [h2, if_false, if_true]
    rw [if_neg h1]
    have hb : buffer1 = buffer ++ (StrItem.escape esc).decode := escape_buffer_eq buffer esc
    obtain ⟨items, tr, td, hv, ho, e1, e2⟩ := ih
    refine ⟨StrItem.escape esc :: items, tr, td, ?_, ho, ?_, ?_⟩
    · intro i hi
      rcases List.mem_cons.1 hi with h | h
      · rw [h]
        trivial
      · exact hv i h
    · simp only [raw_body, StrItem.raw, List.cons_append, List.nil_append]
      rw [← e1]
    · rw [e2, hb]
      simp only [decode, List.append_assoc]
  | case7 c rest buffer s h1 h2 buffer1 h3 =>
    rw [process_string_loop.eq_def]
    simp only [h1, h2, if_false]
    rw [if_pos h3]
    refine ⟨[StrItem.plain c], [], [], ?_, Or.inr (Or.inl ⟨rfl, rfl⟩), ?_, ?_⟩
    · intro i hi
      rw [List.mem_singleton.1 hi]
      exact ⟨h1, h2⟩
    · simp [raw_body, StrItem.raw]
    · simp only [emit_token, report, decode, StrItem.decode, List.append_nil]
      split <;> rfl
  | case8 c rest buffer s h1 h2 buffer1 s1 h3 ih =>
    rw [process_string_loop.eq_def]
    simp only [h1, h2, if_false]
    rw [if_neg h3]
    obtain ⟨items, tr, td, hv, ho, e1, e2⟩ := ih
    refine ⟨StrItem.plain c :: items, tr, td, ?_, ho, ?_, ?_⟩
    · intro i hi
      rcases List.mem_cons.1 hi with h | h
      · rw [h]
        exact ⟨h1, h2⟩
      · exact hv i h
    · simp only [raw_body, StrItem.raw, List.cons_append, List.nil_append]
      rw [← e1]
    · rw [e2]
      simp only [decode, StrItem.decode, List.append_assoc, buffer1, s1]
      split <;> rfl

/-- A body without a backslash is made of plain bytes only, so decoding changes
nothing. -/
theorem decode_eq_raw_of_no_backslash (items : List StrItem) (h : 92 ∉ raw_body items) :
    decode items = raw_body items := by
  induction items with
  | nil => rfl
  | cons i items ih =>
    cases i with
    | plain c =>
      simp only [raw_body, StrItem.raw, decode, StrItem.decode] at h ⊢
      rw [ih (fun hm => h (List.mem_append_right _ hm))]
    | escape x =>
      exact absurd (by simp [raw_body, StrItem.raw]) h

/-! ## Lexemes -/

/-- C9 (amended): in every scan each token that is not an Identifier has its value
equal to its lexeme; and one iteration of the main loop, which reads the text
`consumed` from the front of the stream, emits at most one token, whose lexeme is
`consumed` itself for a Keyword, an Operator or a Delimiter (the iteration not
having started on a NUL byte), and the first 255 bytes of `consumed` for an
Identifier or an Integer.  For a String token `consumed` is the opening quote, a
body of plain bytes and backslash pairs, and an ending (the closing quote;
nothing, when the literal was cut or the input ended; or a lone backslash at the
end of the input), and the lexeme is the C string of the buffer after escape
processing: the opening quote, the decoded body, and the closing quote when one
was read (backslash and the byte 255 after a lone final backslash); so when
`consumed` holds neither a backslash nor a NUL byte the lexeme of the String
token is `consumed` itself. -/
theorem lexeme_of_token :
    (∀ src : List Nat, ∃ s, scan src = some s ∧
      ∀ t ∈ s.tokens, t.type ≠ TOKEN_ID → t.value = t.lexeme) ∧
    (∀ (c : Nat) (rest : List Nat) (s : Lexer),
      ∃ consumed, c :: rest = consumed ++ (scan_step c rest s).1 ∧
        ((scan_step c rest s).2.tokens = s.tokens ∨
          ∃ t, (scan_step c rest s).2.tokens = s.tokens ++ [t] ∧
            (t.type = TOKEN_KEYWORD ∨ t.type = TOKEN_OPERATOR ∨ t.type = TOKEN_DELIMITER →
              c ≠ 0 → t.lexeme = consumed) ∧
            (t.type = TOKEN_ID ∨ t.type = TOKEN_INTEGER → t.lexeme = consumed.take 255) ∧
            (t.type = TOKEN_STRING →
              (∃ items tr td, (∀ i ∈ items, i.valid) ∧
                ((tr = [34] ∧ td = [34]) ∨ (tr = [] ∧ td = []) ∨
                  (tr = [92] ∧ td = [92, 255])) ∧
                consumed = [34] ++ raw_body items ++ tr ∧
                t.lexeme = cstr ([34] ++ decode items ++ td)) ∧
              (92 ∉ consumed → 0 ∉ consumed → t.lexeme = consumed)))) := by
  constructor
  · intro src
    obtain ⟨s, e, _, _, _, h4⟩ := scan_consistent src
    exact ⟨s, e, h4⟩
  intro c rest s
  by_cases hs : isspace c = true
  · rw [scan_step_space c rest s hs]
    refine ⟨[c], rfl, Or.inl ?_⟩
    split <;> rfl
  by_cases h34 : c = 34
  · subst h34
    rw [scan_step_quote]
    obtain ⟨items, tr, td, hv, ho, e1, e2⟩ :=
      process_string_loop_decoded s.line s.col rest [34] { s with col := s.col + 1 }
    refine ⟨[34] ++ raw_body items ++ tr, ?_, Or.inr ⟨_, e2, ?_, ?_, ?_⟩⟩
    · have e1' : rest = raw_body items ++ tr ++ (process_string rest s).1 := e1
      simp only [List.append_assoc, List.singleton_append, List.cons_append]
      exact congrArg (List.cons 34) (by simpa using e1')
    · intro h
      simp at h
    · intro h
      simp at h
    · intro _
      refine ⟨⟨items, tr, td, hv, ho, rfl, rfl⟩, ?_⟩
      intro h92 h0
      have hraw : 92 ∉ raw_body items := fun hm =>
        h92 (List.mem_append_left _ (List.mem_append_right _ hm))
      have htd : td = tr := by
        rcases ho with ⟨a, b⟩ | ⟨a, b⟩ | ⟨a, b⟩
        · rw [a, b]
        · rw [a, b]
        · exact absurd (List.mem_append_right _ (by rw [a]; simp)) h92
      show cstr ([34] ++ decode items ++ td) = [34] ++ raw_body items ++ tr
      rw [htd, decode_eq_raw_of_no_backslash items hraw]
      exact cstr_eq_self (fun b hb e => h0 (e ▸ hb))
  by_cases h47 : c = 47
  · subst h47
    have hslash : ∀ r : List Nat, (∀ b ∈ r.head?, b ≠ 47 ∧ b ≠ 42) →
        ∃ consumed, 47 :: r = consumed ++ (scan_step 47 r s).1 ∧
        ((scan_step 47 r s).2.tokens = s.tokens ∨
          ∃ t, (scan_step 47 r s).2.tokens = s.tokens ++ [t] ∧
            (t.type = TOKEN_KEYWORD ∨ t.type = TOKEN_OPERATOR ∨ t.type = TOKEN_DELIMITER →
              (47 : Nat) ≠ 0 → t.lexeme = consumed) ∧
            (t.type = TOKEN_ID ∨ t.type = TOKEN_INTEGER → t.lexeme = consumed.take 255) ∧
            (t.type = TOKEN_STRING →
              (∃ items tr td, (∀ i ∈ items, i.valid) ∧
                ((tr = [34] ∧ td = [34]) ∨ (tr = [] ∧ td = []) ∨
                  (tr = [92] ∧ td = [92, 255])) ∧
                consumed = [34] ++ raw_body items ++ tr ∧
                t.lexeme = cstr ([34] ++ decode items ++ td)) ∧
              (92 ∉ consumed → 0 ∉ consumed → t.lexeme = consumed))) := by
      intro r hr
      rw [scan_step_slash r s hr]
      exact ⟨[47], rfl, Or.inr ⟨_, rfl, fun _ _ => rfl, fun h => by simp at h, fun h => by simp at h⟩⟩
    cases rest with
    | nil => exact hslash [] (by simp)
    | cons b rest =>
      by_cases hb1 : b = 47
      · subst hb1
        rw [scan_step_line_comment]
        obtain ⟨⟨pre, hpre⟩, _, _, i4⟩ := skip_line_comment_frame rest { s with col := s.col + 1 }
        exact ⟨47 :: 47 :: pre, by simp [hpre], Or.inl i4⟩
      by_cases hb2 : b = 42
      · subst hb2
        rw [scan_step_block_comment]
        obtain ⟨⟨pre, hpre⟩, _, _, i4⟩ :=
          skip_block_comment_frame s.line s.col rest { s with col := s.col + 1 }
        exact ⟨47 :: 42 :: pre, by simp [hpre], Or.inl i4⟩
      exact hslash (b :: rest) (by intro b' hb'; simp at hb'; subst hb'; exact ⟨hb1, hb2⟩)
  by_cases hop : is_operator_start c = true
  · by_cases hm : is_multi_char_operator c rest.head? = true
    · cases rest with
      | nil => simp [is_multi_char_operator] at hm
      | cons next rest =>
        rw [scan_step_operator_pair c next rest s h47 hop hm]
        exact ⟨[c, next], rfl, Or.inr ⟨_, rfl, fun _ _ => rfl, fun h => by simp at h,
          fun h => by simp at h⟩⟩
    · rw [scan_step_operator_single c rest s h47 hop (by simpa using hm)]
      refine ⟨[c], rfl, Or.inr ⟨_, rfl, fun _ h0 => ?_, fun h => by simp at h,
        fun h => by simp at h⟩⟩
      exact cstr_eq_self (by intro b hb; simp at hb; omega)
  have hop' : is_operator_start c = false := by simpa using hop
  by_cases hd : is_delimiter c = true
  · rw [scan_step_delimiter c rest s h34 hop' hd]
    exact ⟨[c], rfl, Or.inr ⟨_, rfl, fun _ _ => rfl, fun h => by simp at h, fun h => by simp at h⟩⟩
  by_cases ha : isalpha c = true ∨ c = 95
  · obtain ⟨w, rest', e, hw, hmax⟩ := maximal_run_split ident_char rest
    rw [e, scan_step_ident c w rest' s ha hw hmax]
    have hz := cstr_eq_self (ne_zero_of_mem_take (n := MAX_IDENT_LEN - 1) (ident_bytes_ne_zero ha hw))
    by_cases hk : (c :: w).take (MAX_IDENT_LEN - 1) ∈ keywords
    · rw [if_pos hk]
      have hlen : (c :: w).length ≤ MAX_IDENT_LEN - 1 :=
        le_trans (keywords_length _ ((take_mem_keywords_iff _).1 hk)) (by simp [MAX_IDENT_LEN])
      refine ⟨c :: w, rfl, Or.inr ⟨_, rfl, fun _ _ => ?_, fun h => by simp at h,
        fun h => by simp at h⟩⟩
      rw [hz]
      exact List.take_of_length_le hlen
    · rw [if_neg hk]
      refine ⟨c :: w, rfl, Or.inr ?_⟩
      simp only [emit_token, get_id_code_tokens]
      exact ⟨_, rfl, fun h => by simp at h, fun _ => hz, fun h => by simp at h⟩
  by_cases hdig : isdigit c = true
  · obtain ⟨d, rest', e, hd', hmax⟩ := maximal_run_split isdigit rest
    rw [e, scan_step_digits c d rest' s hdig hd' hmax]
    have hz := cstr_eq_self (ne_zero_of_mem_take (n := MAX_IDENT_LEN - 1) (digit_bytes_ne_zero hdig hd'))
    exact ⟨c :: d, by simp, Or.inr ⟨_, rfl, fun h => by simp at h, fun _ => hz,
      fun h => by simp at h⟩⟩
  rw [scan_step_invalid c rest s (by simpa using hs) h34 hop' (by simpa using hd)
    (by simpa using fun h => ha (Or.inl h)) (fun h => ha (Or.inr h)) (by simpa using hdig)]
  exact ⟨[c], rfl, Or.inl rfl⟩

/-- C9 at the input `count = 42`, where the first iteration reads `count` and the
Identifier token has that lexeme, and at the literal `"hi"` followed by ` x`,
where the iteration reads the four bytes of the literal and the String token has
them as its lexeme. -/
theorem lexeme_of_token_witness :
    ((scan_step 99 (bytes "ount = 42") Lexer.init).1 = bytes " = 42" ∧
      (scan_step 99 (bytes "ount = 42") Lexer.init).2.tokens =
        [{ type := TOKEN_ID, value := bytes "100", lexeme := bytes "count" }]) ∧
    ((scan_step 34 (bytes "hi\" x") Lexer.init).1 = bytes " x" ∧
      (scan_step 34 (bytes "hi\" x") Lexer.init).2.tokens =
        [{ type := TOKEN_STRING, value := bytes "\"hi\"", lexeme := bytes "\"hi\"" }]) ∧
    (∃ consumed,
      34 :: bytes "hi\" x" = consumed ++ (scan_step 34 (bytes "hi\" x") Lexer.init).1 ∧
      ((scan_step 34 (bytes "hi\" x") Lexer.init).2.tokens = Lexer.init.tokens ∨
        ∃ t, (scan_step 34 (bytes "hi\" x") Lexer.init).2.tokens = Lexer.init.tokens ++ [t] ∧
          (t.type = TOKEN_KEYWORD ∨ t.type = TOKEN_OPERATOR ∨ t.type = TOKEN_DELIMITER →
            (34 : Nat) ≠ 0 → t.lexeme = consumed) ∧
          (t.type = TOKEN_ID ∨ t.type = TOKEN_INTEGER → t.lexeme = consumed.take 255) ∧
          (t.type = TOKEN_STRING →
            (∃ items tr td, (∀ i ∈ items, i.valid) ∧
              ((tr = [34] ∧ td = [34]) ∨ (tr = [] ∧ td = []) ∨
                (tr = [92] ∧ td = [92, 255])) ∧
              consumed = [34] ++ raw_body items ++ tr ∧
              t.lexeme = cstr ([34] ++ decode items ++ td)) ∧
            (92 ∉ consumed → 0 ∉ consumed → t.lexeme = consumed)))) :=
  ⟨by decide, by decide, lexeme_of_token.2 34 (bytes "hi\" x") Lexer.init⟩

/-! ## Positions and the range of `int` -/

end BMinorLexer
